import Mathlib

/-!
# ptracer: the breakpoint-and-single-step engine of `src/trace.c`

A shallow embedding of `trace.c`.  The traced child and the kernel's `ptrace`
interface are the environment of the program: the child is a record of its
registers, its memory (one 64-bit word per address at which the tracer peeks
or pokes), a liveness flag and the history of the requests issued against
it; the kernel is a record of functions deciding which request fails and
what the child does when it is single-stepped or left to run.
Every theorem quantifies over the kernel.
-/

namespace Ptracer

/-! ## Machine words -/

/-- Modulus of `unsigned long` / `long` on the source architecture (x86-64). -/
def WORD : Nat := 2 ^ 64

/-- The macro of `trace.c:15`, `(~((unsigned long)0xFF))`. -/
def HIGH_BIT_MASK : Nat := (2 ^ 64 - 1) - 0xFF

/-- Byte number `k` of a word, byte 0 being the lowest-addressed one
(x86-64 is little-endian). -/
def byteOf (w k : Nat) : Nat := (w / 256 ^ k) % 256

/-! ## Data model -/

/-- The part of `struct user_regs_struct` that `trace.c` reads or writes. -/
structure user_regs_struct where
  rip : Nat
  rsp : Nat
deriving DecidableEq, Repr

/-- One record of the function table (`function_information_t`):
`name` is a `char *` (`none` is `NULL`, the state after `calloc`),
`ip` the entry address and `original` the saved word. -/
structure function_information_t where
  name : Option String
  ip : Nat
  original : Nat
deriving DecidableEq, Repr

/-- A request the tracer issues against the child: the `ptrace` requests used
by `trace.c` and `kill(child_pid, SIGKILL)`. -/
inductive Request where
  | PEEKTEXT (addr : Nat)
  | POKETEXT (addr data : Nat)
  | GETREGS
  | SETREGS (regs : user_regs_struct)
  | SINGLESTEP
  | CONT
  | KILL
deriving DecidableEq, Repr

/-- The traced child as the tracer can observe it. `alive` is cleared only
when a wait reports exit or termination by a signal, or when the tracer
kills the child. `log` is the history of requests issued, oldest first. -/
structure Child where
  alive : Bool
  regs : user_regs_struct
  mem : Nat → Nat
  log : List Request

/-- What `waitpid` reports about the child. -/
inductive WaitStatus where
  | stopped (regs : user_regs_struct) (mem : Nat → Nat)
  | exited (code : Nat)
  | signaled (sig : Nat)

/-- The environment: `fails c r` tells whether request `r` issued in state
`c` fails, `step c` what the wait after a successful `PTRACE_SINGLESTEP`
reports, `run c` what the wait at the top of the event loop reports
(`none` when `waitpid` returns `-1`). Since the child carries the request
history, each of them may depend on everything that happened before. -/
structure Kernel where
  fails : Child → Request → Bool
  step : Child → WaitStatus
  run : Child → Option WaitStatus

/-- Record that request `r` has been issued. -/
def Child.issue (c : Child) (r : Request) : Child :=
  { c with log := c.log ++ [r] }

/-- A request is refused when the child is gone or the kernel fails it. -/
def refused (K : Kernel) (c : Child) (r : Request) : Bool :=
  !c.alive || K.fails c r

/-! ## The ptrace requests -/

/-- Request `ptrace(PTRACE_PEEKTEXT, pid, addr, 0)`: the first component tells
whether `errno` was set, the second is the returned `long` (as a bit pattern;
`-1` on failure). -/
def ptrace_peektext (K : Kernel) (c : Child) (addr : Nat) : Bool × Nat × Child :=
  if refused K c (.PEEKTEXT addr) then (true, WORD - 1, c.issue (.PEEKTEXT addr))
  else (false, c.mem addr % WORD, c.issue (.PEEKTEXT addr))

/-- Request `ptrace(PTRACE_POKETEXT, pid, addr, data)`: the first component tells
whether `errno` was set. -/
def ptrace_poketext (K : Kernel) (c : Child) (addr data : Nat) : Bool × Child :=
  if refused K c (.POKETEXT addr data) then (true, c.issue (.POKETEXT addr data))
  else (false, { c.issue (.POKETEXT addr data) with
                 mem := fun a => if a = addr then data % WORD else c.mem a })

/-- Request `ptrace(PTRACE_GETREGS, pid, NULL, &regs)`; `none` when the call
returns a negative value. -/
def ptrace_getregs (K : Kernel) (c : Child) : Option user_regs_struct × Child :=
  if refused K c .GETREGS then (none, c.issue .GETREGS)
  else (some ⟨c.regs.rip % WORD, c.regs.rsp % WORD⟩, c.issue .GETREGS)

/-- Request `ptrace(PTRACE_SETREGS, pid, NULL, &regs)`; `true` when the call
succeeds. -/
def ptrace_setregs (K : Kernel) (c : Child) (regs : user_regs_struct) : Bool × Child :=
  if refused K c (.SETREGS regs) then (false, c.issue (.SETREGS regs))
  else (true, { c.issue (.SETREGS regs) with regs := regs })

/-- Request `ptrace(PTRACE_CONT, pid, NULL, NULL)`; `true` when the call succeeds.
The progress of the child is observed by the next wait. -/
def ptrace_cont (K : Kernel) (c : Child) : Bool × Child :=
  (!refused K c .CONT, c.issue .CONT)

/-- The call `kill(child_pid, SIGKILL)`. -/
def kill (c : Child) : Child :=
  { c.issue .KILL with alive := false }

/-- `PTRACE_SINGLESTEP` followed by `waitpid` and the `WIFEXITED || WIFSIGNALED`
test, the sequence of `trace.c:346-356` and `trace.c:420-430`. -/
def single_step_and_wait (K : Kernel) (c : Child) : Bool × Child :=
  if refused K c .SINGLESTEP then (false, c.issue .SINGLESTEP)
  else
    match K.step c with
    | .stopped regs mem => (true, { c.issue .SINGLESTEP with regs := regs, mem := mem })
    | .exited _ => (false, { c.issue .SINGLESTEP with alive := false })
    | .signaled _ => (false, { c.issue .SINGLESTEP with alive := false })

/-! ## Breakpoint manager -/

/-- Function `trace_add_breakpoint` (`trace.c:212-227`): returns the result, the
updated record and the child. `original` is assigned the value returned by
the peek before `errno` is tested. -/
def trace_add_breakpoint (K : Kernel) (c : Child) (func_info : function_information_t) :
    Bool × function_information_t × Child :=
  match ptrace_peektext K c func_info.ip with
  | (errno, data, c1) =>
    let func_info1 := { func_info with original := data }
    if errno then (false, func_info1, c1)
    else
      match ptrace_poketext K c1 func_info1.ip
              (Nat.lor (Nat.land func_info1.original HIGH_BIT_MASK) 0xCC) with
      | (errno2, c2) => (!errno2, func_info1, c2)

/-- Function `trace_restore_function` (`trace.c:294-316`). -/
def trace_restore_function (K : Kernel) (c : Child) (func_info : function_information_t) :
    Bool × Child :=
  match ptrace_peektext K c func_info.ip with
  | (errno, data, c1) =>
    if errno then (false, c1)
    else
      match ptrace_poketext K c1 func_info.ip
              (Nat.lor (Nat.land data HIGH_BIT_MASK) (Nat.land func_info.original 0xFF)) with
      | (errno2, c2) => if errno2 then (false, c2) else (true, c2)

/-- Function `trace_add_breakpoints` (`trace.c:229-245`), as a recursion on the
records still to be armed: the first failing install kills the child and
returns `false`; after the last record the child is continued (the result of
that request is not looked at) and the result is `true`. The table is returned
with the records as the installs left them. -/
def trace_add_breakpoints (K : Kernel) (c : Child) :
    List function_information_t → Bool × List function_information_t × Child
  | [] => (true, [], (ptrace_cont K c).2)
  | func_info :: rest =>
    match trace_add_breakpoint K c func_info with
    | (false, func_info1, c1) => (false, func_info1 :: rest, kill c1)
    | (true, func_info1, c1) =>
      match trace_add_breakpoints K c1 rest with
      | (res, rest1, c2) => (res, func_info1 :: rest1, c2)

/-! ## Process controller -/

/-- Function `trace_get_child_ip` (`trace.c:279-292`): `ip` is the value of `*ip`
before the call, which the call leaves alone when the register read fails. -/
def trace_get_child_ip (K : Kernel) (c : Child) (ip : Nat) : Bool × Nat × Child :=
  match ptrace_getregs K c with
  | (none, c1) => (false, ip, c1)
  | (some regs, c1) => (true, regs.rip, c1)

/-- Function `trace_get_return_address` (`trace.c:318-339`): `addr` is the value of
`*addr` before the call, which the call leaves alone when it fails. -/
def trace_get_return_address (K : Kernel) (c : Child) (addr : Nat) : Bool × Nat × Child :=
  match ptrace_getregs K c with
  | (none, c1) => (false, addr, c1)
  | (some regs, c1) =>
    match ptrace_peektext K c1 regs.rsp with
    | (errno, data, c2) => if errno then (false, addr, c2) else (true, data, c2)

/-- Function `trace_single_step` (`trace.c:341-359`). -/
def trace_single_step (K : Kernel) (c : Child) : Bool × Child :=
  single_step_and_wait K c

/-! ## Instruction-counting engine -/

/-- What `trace_count_instructions` leaves behind: its return value, `*count`,
the record it was given and the child. -/
structure CountResult where
  ret : Bool
  count : Nat
  func_info : function_information_t
  child : Child

/-- The counting loop of `trace.c:402-413`. `ip` is the local variable of that
name, which a failed register read leaves at its previous value; `fuel`
bounds the number of rounds, `none` meaning the loop has not finished within
`fuel` rounds. The result is `(left through break, count, child)`. The
counter is a `size_t`; it is not reduced modulo `2 ^ 64`, a bound that
a run of single-steps does not reach. -/
def count_loop (K : Kernel) (return_address : Nat) :
    Nat → Child → Nat → Nat → Option (Bool × Nat × Child)
  | 0, _, _, _ => none
  | fuel + 1, c, ip, count =>
    match trace_get_child_ip K c ip with
    | (_, ip1, c1) =>
      if ip1 = return_address then some (true, count, c1)
      else
        match trace_single_step K c1 with
        | (false, c2) => some (false, count, c2)
        | (true, c2) => count_loop K return_address fuel c2 ip1 (count + 1)

/-- Function `trace_count_instructions` (`trace.c:361-448`). `junk_ra` and `junk_ip`
are the indeterminate initial values of the locals `return_address` and `ip`;
the result of `trace_get_return_address` is not looked at. -/
def trace_count_instructions (K : Kernel) (fuel : Nat) (c : Child)
    (func_info : function_information_t) (junk_ra junk_ip : Nat) : Option CountResult :=
  match trace_get_return_address K c junk_ra with
  | (_, return_address, c1) =>
  match ptrace_getregs K c1 with
  | (none, c2) => some ⟨false, 0, func_info, c2⟩
  | (some regs, c2) =>
  match ptrace_setregs K c2 { regs with rip := (regs.rip + WORD - 1) % WORD } with
  | (false, c3) => some ⟨false, 0, func_info, c3⟩
  | (true, c3) =>
  match trace_restore_function K c3 func_info with
  | (false, c4) => some ⟨false, 0, func_info, c4⟩
  | (true, c4) =>
  match trace_single_step K c4 with
  | (false, c5) => some ⟨false, 0, func_info, c5⟩
  | (true, c5) =>
  match trace_add_breakpoint K c5 func_info with
  | (false, func_info1, c6) => some ⟨false, 0, func_info1, c6⟩
  | (true, func_info1, c6) =>
  match count_loop K return_address fuel c6 junk_ip 1 with
  | none => none
  | some (false, count, c7) => some ⟨false, count, func_info1, c7⟩
  | some (true, count, c7) =>
  match trace_restore_function K c7 func_info1 with
  | (false, c8) => some ⟨false, count, func_info1, c8⟩
  | (true, c8) =>
  match single_step_and_wait K c8 with
  | (false, c9) => some ⟨false, count, func_info1, c9⟩
  | (true, c9) =>
  match trace_add_breakpoint K c9 func_info1 with
  | (false, func_info2, c10) => some ⟨false, count, func_info2, c10⟩
  | (true, func_info2, c10) =>
  match ptrace_getregs K c10 with
  | (none, c11) => some ⟨false, count, func_info2, c11⟩
  | (some _, c11) =>
  match ptrace_cont K c11 with
  | (false, c12) => some ⟨false, count, func_info2, c12⟩
  | (true, c12) => some ⟨true, count, func_info2, c12⟩

/-! ## Event loop -/

/-- The loop of `trace_find_function_info` (`trace.c:503-515`) from index `i` on;
`ip - 1` is unsigned arithmetic. The result stands for the returned pointer:
the index of the record it points to together with that record, `none` for
`NULL`. -/
def find_function_info_from (ip : Nat) :
    List function_information_t → Nat → Option (Nat × function_information_t)
  | [], _ => none
  | func_info :: rest, i =>
    if func_info.ip = (ip + WORD - 1) % WORD then some (i, func_info)
    else find_function_info_from ip rest (i + 1)

/-- Function `trace_find_function_info` (`trace.c:503-515`). -/
def trace_find_function_info (function_infos : List function_information_t) (ip : Nat) :
    Option (Nat × function_information_t) :=
  find_function_info_from ip function_infos 0

/-- What `trace_function_call` leaves behind: its return value, the count the
engine produced (`none` when the engine did not run), the table and the child. -/
structure CallResult where
  ret : Bool
  count : Option Nat
  function_infos : List function_information_t
  child : Child

/-- Function `trace_function_call` (`trace.c:517-550`). `junk` holds the
indeterminate initial values of the locals of this function and of
`trace_count_instructions`. -/
def trace_function_call (K : Kernel) (fuel : Nat) (c : Child)
    (function_infos : List function_information_t) (junk : Nat) : Option CallResult :=
  match trace_get_child_ip K c junk with
  | (false, _, c1) => some ⟨false, none, function_infos, c1⟩
  | (true, ip, c1) =>
    match trace_find_function_info function_infos ip with
    | none =>
      match ptrace_cont K c1 with
      | (false, c2) => some ⟨false, none, function_infos, c2⟩
      | (true, c2) => some ⟨true, none, function_infos, c2⟩
    | some (i, func_info) =>
      match trace_count_instructions K fuel c1 func_info junk junk with
      | none => none
      | some r => some ⟨r.ret, some r.count, function_infos.set i r.func_info, r.child⟩

/-- Function `trace_function_calls` (`trace.c:552-583`): `loops` bounds the number
of rounds of the event loop and `fuel` the rounds of each counting loop;
`none` means that a bound was reached. The result is the return value, the
table and the child. -/
def trace_function_calls (K : Kernel) (fuel : Nat) (junk : Nat) :
    Nat → Child → List function_information_t →
      Option (Bool × List function_information_t × Child)
  | 0, _, _ => none
  | loops + 1, c, function_infos =>
    match K.run c with
    | none => some (false, function_infos, c)
    | some (.exited _) => some (true, function_infos, { c with alive := false })
    | some (.signaled _) => some (true, function_infos, { c with alive := false })
    | some (.stopped regs mem) =>
      match trace_function_call K fuel { c with regs := regs, mem := mem } function_infos junk with
      | none => none
      | some r =>
        if r.ret then trace_function_calls K fuel junk loops r.child r.function_infos
        else some (false, r.function_infos, r.child)

/-! ## Address resolution -/

/-- The DWARF tag of a function, `DW_TAG_subprogram`. -/
def DW_TAG_subprogram : Nat := 0x2e

/-- A debugging information entry as the resolution walk reads it: what
`dwarf_tag`, `dwarf_attr(DW_AT_name)` with `dwarf_formstring`, and `dwarf_lowpc`
give for it. Each of these calls is taken to return `DW_DLV_OK`; throughout
the walk no libdwarf call returns `DW_DLV_ERROR`, so the branches of `trace.c`
that test for it are not taken. -/
structure Die where
  tag : Nat
  name : String
  lowpc : Nat
deriving DecidableEq, Repr

/-- The part of `trace_info_t` the resolution walk writes: the table, of
`num_func_infos` slots, and the cursor `next_func`. -/
structure trace_info_t where
  function_infos : List function_information_t
  next_func : Nat
deriving DecidableEq, Repr

/-- The name-matching loop of `trace_is_target_function` (`trace.c:79-94`) over the
requested names still to compare. The result is the value returned (`1` or
`0`) and the session; `none` stands for undefined behaviour, the write
to `function_infos[next_func]` when `next_func` is not an index of the table.
`strdup` is taken to succeed. -/
def is_target_loop (trace_info : trace_info_t) (die : Die) :
    List String → Option (Nat × trace_info_t)
  | [] => some (0, trace_info)
  | f :: rest =>
    if f = die.name then
      match trace_info.function_infos.get? trace_info.next_func with
      | none => none
      | some slot =>
        some (1, { trace_info with
                   function_infos := trace_info.function_infos.set trace_info.next_func
                     { slot with name := some die.name, ip := die.lowpc } })
    else is_target_loop trace_info die rest

/-- Function `trace_is_target_function` (`trace.c:41-97`). -/
def trace_is_target_function (functions : List String) (trace_info : trace_info_t)
    (die : Die) : Option (Nat × trace_info_t) :=
  if die.tag ≠ DW_TAG_subprogram then some (0, trace_info)
  else is_target_loop trace_info die functions

/-- The loop of `trace_cu_find_functions` (`trace.c:116-137`) at the entry
`child_die`, with `siblings` the entries `dwarf_siblingof` will give after it. -/
def cu_find_loop (functions : List String) :
    trace_info_t → Nat → Die → List Die → Option (Nat × trace_info_t)
  | trace_info, count, child_die, siblings =>
    match trace_is_target_function functions trace_info child_die with
    | none => none
    | some (res, trace_info1) =>
      let trace_info2 :=
        if res = 1 then { trace_info1 with next_func := trace_info1.next_func + 1 }
        else trace_info1
      let count2 := if res = 1 then count + 1 else count
      match siblings with
      | [] => some (count2, trace_info2)
      | next :: more => cu_find_loop functions trace_info2 count2 next more

/-- Function `trace_cu_find_functions` (`trace.c:99-140`) on the children of a
compilation unit. When the unit has no child, `dwarf_child` returns
`DW_DLV_NO_ENTRY` and leaves `child_die` unset, and the loop reads it all
the same: undefined behaviour, `none`. -/
def trace_cu_find_functions (functions : List String) (trace_info : trace_info_t) :
    List Die → Option (Nat × trace_info_t)
  | [] => none
  | child_die :: siblings => cu_find_loop functions trace_info 0 child_die siblings

/-- Result of `trace_find_functions`: `success` with the function table, `failure`
(the table is freed), or undefined behaviour. -/
inductive FindResult where
  | success (function_infos : List function_information_t)
  | failure
  | undefined
deriving DecidableEq, Repr

/-- The loop over compilation units of `trace_find_functions` (`trace.c:172-199`)
and the final test of `trace.c:201-205`. A compilation unit has one top-level
entry, whose children are walked. -/
def find_functions_loop (functions : List String) (num_func_infos : Nat) :
    List (List Die) → trace_info_t → Nat → FindResult
  | [], trace_info, total_found_functions =>
    if num_func_infos ≠ total_found_functions then .failure
    else .success trace_info.function_infos
  | cu :: rest, trace_info, total_found_functions =>
    if total_found_functions < num_func_infos then
      match trace_cu_find_functions functions trace_info cu with
      | none => .undefined
      | some (found_functions, trace_info1) =>
        find_functions_loop functions num_func_infos rest trace_info1
          (total_found_functions + found_functions)
    else
      if num_func_infos ≠ total_found_functions then .failure
      else .success trace_info.function_infos

/-- Function `trace_info_initialize` (`trace.c:17-27`): a zeroed table of one slot
per requested name (`calloc` is taken to succeed). -/
def trace_info_initialize (functions : List String) : trace_info_t :=
  { function_infos := List.replicate functions.length ⟨none, 0, 0⟩, next_func := 0 }

/-- Function `trace_find_functions` (`trace.c:142-210`): `open_ok` and `init_ok` tell
whether `open` and `dwarf_init` succeed, `walk` is the sequence of compilation
units `dwarf_next_cu_header` yields, each with the children of its entry. -/
def trace_find_functions (functions : List String) (open_ok init_ok : Bool)
    (walk : List (List Die)) : FindResult :=
  if !open_ok then .failure
  else if !init_ok then .failure
  else find_functions_loop functions functions.length walk ( trace_info_initialize functions) 0

/-! ## Notions used to state the properties -/

/-- Whether a request reads or writes the word at address `a`. -/
def Request.touches : Request → Nat → Bool
  | .PEEKTEXT addr, a => addr == a
  | .POKETEXT addr _, a => addr == a
  | _, _ => false

/-- Install the records of a list one after the other, as the loop of
`trace_add_breakpoints` does, up to the first failure: whether all succeeded,
and the child afterwards. -/
def arm_first (K : Kernel) : Child → List function_information_t → Bool × Child
  | c, [] => (true, c)
  | c, func_info :: rest =>
    match trace_add_breakpoint K c func_info with
    | (true, _, c1) => arm_first K c1 rest
    | (false, _, c1) => (false, c1)

/-- The requests of a successful install that left `func_info`: the peek at the
entry address and the poke of the saved word with its low byte replaced by
the trap opcode. -/
def install_requests (func_info : function_information_t) : List Request :=
  [.PEEKTEXT func_info.ip,
   .POKETEXT func_info.ip (Nat.lor (Nat.land func_info.original HIGH_BIT_MASK) 0xCC)]

/-- The child in which the first single-step of `trace_count_instructions` is
taken: after the return address is read, the program counter is rewound and
the breakpoint is removed. -/
def replay_state (K : Kernel) (c : Child) (func_info : function_information_t)
    (junk_ra : Nat) : Child :=
  let c1 := (trace_get_return_address K c junk_ra).2.2
  let c2 := (ptrace_getregs K c1).2
  let c3 := (ptrace_setregs K c2
              ⟨(c1.regs.rip % WORD + WORD - 1) % WORD, c1.regs.rsp % WORD⟩).2
  (trace_restore_function K c3 func_info).2

/-- The child at the head of the counting loop: after the first instruction is
replayed from `replay_state` and the breakpoint is installed again. -/
def loop_entry (K : Kernel) (c : Child) (func_info : function_information_t)
    (junk_ra : Nat) : Child :=
  (trace_add_breakpoint K
    (trace_single_step K (replay_state K c func_info junk_ra)).2 func_info).2.2

/-- The child after `n` further rounds of the counting loop, each a register
read and a single-step; `none` when one of the single-steps fails. -/
def after_rounds (K : Kernel) : Nat → Child → Option Child
  | 0, c => some c
  | n + 1, c =>
    match trace_single_step K (ptrace_getregs K c).2 with
    | (true, c1) => after_rounds K n c1
    | (false, _) => none

/-- The program counter of the child after `n` single-steps from the rewound
entry address, for `n ≥ 1`: the replayed first instruction and `n - 1` steps
of the counting loop. -/
def pc_after_steps (K : Kernel) (c : Child) (func_info : function_information_t)
    (junk_ra : Nat) (n : Nat) : Option Nat :=
  (after_rounds K (n - 1) (loop_entry K c func_info junk_ra)).map (fun s => s.regs.rip % WORD)

/-- Whether the resolution walk takes an entry for a requested function: it is
a subprogram and its name is one of the requested names. -/
def Die.is_match (functions : List String) (d : Die) : Bool :=
  d.tag == DW_TAG_subprogram && decide (d.name ∈ functions)

/-- The record the resolution walk writes for an entry into a zeroed slot. -/
def Die.record (d : Die) : function_information_t :=
  ⟨some d.name, d.lowpc, 0⟩

/-- The table holds the records of the entries `seen`, in order, followed by
zeroed slots up to `n` slots, and the cursor is behind these records. -/
def walk_state (n : Nat) (trace_info : trace_info_t) (seen : List Die) : Prop :=
  trace_info.next_func = seen.length ∧
  trace_info.function_infos
    = seen.map Die.record ++ List.replicate (n - seen.length) ⟨none, 0, 0⟩

/-! ## Concrete environments -/

/-- A kernel that fails nothing: the child executes one-byte instructions in
a straight line and exits when left to run. -/
def K_line : Kernel :=
  { fails := fun _ _ => false
    step := fun c => .stopped ⟨c.regs.rip + 1, c.regs.rsp⟩ c.mem
    run := fun _ => some (.exited 0) }

/-- A child stopped by the trap at entry address 16: the word there is armed,
the stack pointer is `0x7000` and the word on top of the stack, the return
address, is 19. -/
def c_trap : Child :=
  { alive := true
    regs := ⟨17, 0x7000⟩
    mem := fun a => if a = 16 then 0x11223344556677CC else if a = 0x7000 then 19 else 0
    log := [] }

/-- The same child before any breakpoint is installed. -/
def c_fresh : Child :=
  { alive := true
    regs := ⟨4096, 0x7000⟩
    mem := fun a => if a = 16 then 0x1122334455667788 else if a = 0x7000 then 19 else 0
    log := [] }

/-- A kernel that fails every peek at address 32 and nothing else. -/
def K_fault32 : Kernel :=
  { fails := fun _ r => r == .PEEKTEXT 32
    step := fun c => .stopped ⟨c.regs.rip + 1, c.regs.rsp⟩ c.mem
    run := fun _ => some (.exited 0) }

/-- A kernel that fails every continue request and nothing else. -/
def K_nocont : Kernel :=
  { fails := fun _ r => r == .CONT
    step := fun c => .stopped ⟨c.regs.rip + 1, c.regs.rsp⟩ c.mem
    run := fun _ => some (.exited 0) }

/-- A kernel for a child whose stack is not readable: every peek at `0x7000`
fails, nothing else does. -/
def K_stackfault : Kernel :=
  { fails := fun _ r => r == .PEEKTEXT 0x7000
    step := fun c => .stopped ⟨c.regs.rip + 1, c.regs.rsp⟩ c.mem
    run := fun _ => some (.exited 0) }

/-- A kernel that fails one register read, the tenth request issued against
the child, and nothing else. -/
def K_regs_once : Kernel :=
  { fails := fun c r => r == .GETREGS && c.log.length == 9
    step := fun c => .stopped ⟨c.regs.rip + 1, c.regs.rsp⟩ c.mem
    run := fun _ => some (.exited 0) }

/-- A kernel whose `waitpid` at the top of the event loop returns `-1`. -/
def K_waitfail : Kernel :=
  { fails := fun _ _ => false
    step := fun c => .stopped ⟨c.regs.rip + 1, c.regs.rsp⟩ c.mem
    run := fun _ => none }

/-- A kernel that reports the child stopped and then fails every register read. -/
def K_regsfail : Kernel :=
  { fails := fun _ r => r == .GETREGS
    step := fun c => .stopped ⟨c.regs.rip + 1, c.regs.rsp⟩ c.mem
    run := fun c => some (.stopped c.regs c.mem) }

/-- The record of the function at entry address 16. -/
def f_rec : function_information_t := ⟨some "f", 16, 0x1122334455667788⟩

/-! ## Word lemmas -/

theorem HIGH_BIT_MASK_testBit (i : Nat) :
    HIGH_BIT_MASK.testBit i = (decide (8 ≤ i) && decide (i < 64)) := by
  have h : HIGH_BIT_MASK = (2 ^ 56 - 1) <<< 8 := by decide
  rw [h, Nat.testBit_shiftLeft, Nat.testBit_two_pow_sub_one]
  by_cases h1 : 8 ≤ i <;> by_cases h2 : i < 64 <;> simp [h1, h2] <;> omega


theorem land_HIGH_testBit (w i : Nat) :
    (Nat.land w HIGH_BIT_MASK).testBit i = (w.testBit i && (decide (8 ≤ i) && decide (i < 64))) := by
  show (w &&& HIGH_BIT_MASK).testBit i = _
  rw [Nat.testBit_and, HIGH_BIT_MASK_testBit]

theorem testBit_lt_256 (b i : Nat) (hb : b < 256) (hi : 8 ≤ i) : b.testBit i = false := by
  apply Nat.testBit_lt_two_pow
  calc b < 2 ^ 8 := hb
    _ ≤ 2 ^ i := Nat.pow_le_pow_right (by decide) hi

/-- Replacing the low byte: `(c & HIGH_BIT_MASK) | b` for a byte `b`. -/
theorem patch_testBit (c b i : Nat) (hb : b < 256) :
    (Nat.lor (Nat.land c HIGH_BIT_MASK) b).testBit i =
      if i < 8 then b.testBit i else if i < 64 then c.testBit i else false := by
  show (Nat.land c HIGH_BIT_MASK ||| b).testBit i = _
  rw [Nat.testBit_or, land_HIGH_testBit]
  by_cases h1 : i < 8
  · have : ¬ 8 ≤ i := by omega
    simp [h1, this]
  · have h8 : 8 ≤ i := by omega
    rw [testBit_lt_256 b i hb h8]
    by_cases h2 : i < 64 <;> simp [h1, h2, h8]

theorem patch_lt (c b : Nat) (hb : b < 256) :
    Nat.lor (Nat.land c HIGH_BIT_MASK) b < WORD := by
  apply Nat.lt_pow_two_of_testBit
  intro i hi
  rw [patch_testBit c b i hb]
  have h1 : ¬ i < 8 := by omega
  have h2 : ¬ i < 64 := by omega
  simp [h1, h2]

theorem patch_mod (c b : Nat) (hb : b < 256) :
    Nat.lor (Nat.land c HIGH_BIT_MASK) b % 256 = b := by
  apply Nat.eq_of_testBit_eq
  intro i
  have : (256 : Nat) = 2 ^ 8 := by norm_num
  rw [this, Nat.testBit_mod_two_pow, patch_testBit c b i hb]
  by_cases h1 : i < 8
  · simp [h1]
  · simp [h1]
    exact testBit_lt_256 b i hb (by omega)

theorem patch_div (c b : Nat) (hb : b < 256) :
    Nat.lor (Nat.land c HIGH_BIT_MASK) b / 256 = (c % WORD) / 256 := by
  apply Nat.eq_of_testBit_eq
  intro i
  have : (256 : Nat) = 2 ^ 8 := by norm_num
  rw [this, ← Nat.shiftRight_eq_div_pow, ← Nat.shiftRight_eq_div_pow, Nat.testBit_shiftRight,
    Nat.testBit_shiftRight, patch_testBit c b _ hb]
  unfold WORD
  rw [Nat.testBit_mod_two_pow]
  have h1 : ¬ 8 + i < 8 := by omega
  by_cases h2 : 8 + i < 64 <;> simp [h1, h2]

/-- Every byte but the lowest of `(c & HIGH_BIT_MASK) | b` is the byte of `c`. -/
theorem patch_byte_high (c b k : Nat) (hb : b < 256) (hk : 1 ≤ k) :
    byteOf (Nat.lor (Nat.land c HIGH_BIT_MASK) b) k = byteOf (c % WORD) k := by
  unfold byteOf
  obtain ⟨j, rfl⟩ : ∃ j, k = j + 1 := ⟨k - 1, by omega⟩
  rw [pow_succ, mul_comm, ← Nat.div_div_eq_div_mul, ← Nat.div_div_eq_div_mul, patch_div c b hb]

theorem patch_byte_low (c b : Nat) (hb : b < 256) :
    byteOf (Nat.lor (Nat.land c HIGH_BIT_MASK) b) 0 = b := by
  unfold byteOf
  simp [patch_mod c b hb]

theorem land_FF (s : Nat) : Nat.land s 0xFF = s % 256 := by
  show s &&& 255 = s % 256
  have : (255 : Nat) = 2 ^ 8 - 1 := by norm_num
  rw [this, Nat.and_pow_two_sub_one_eq_mod]

/-- A word is determined by its low byte and the rest. -/
theorem patch_self (w : Nat) (hw : w < WORD) :
    Nat.lor (Nat.land w HIGH_BIT_MASK) (w % 256) = w := by
  apply Nat.eq_of_testBit_eq
  intro i
  rw [patch_testBit w _ i (Nat.mod_lt _ (by norm_num))]
  have : (256 : Nat) = 2 ^ 8 := by norm_num
  rw [this, Nat.testBit_mod_two_pow]
  by_cases h1 : i < 8
  · simp [h1]
  · by_cases h2 : i < 64
    · simp [h1, h2]
    · simp [h1, h2]
      apply Nat.testBit_lt_two_pow
      calc w < 2 ^ 64 := hw
        _ ≤ 2 ^ i := Nat.pow_le_pow_right (by decide) (by omega)

/-- Patching twice keeps only the last low byte. -/
theorem patch_patch (w a b : Nat) (ha : a < 256) (hb : b < 256) :
    Nat.lor (Nat.land (Nat.lor (Nat.land w HIGH_BIT_MASK) a) HIGH_BIT_MASK) b
      = Nat.lor (Nat.land w HIGH_BIT_MASK) b := by
  apply Nat.eq_of_testBit_eq
  intro i
  rw [patch_testBit _ b i hb, patch_testBit w b i hb, patch_testBit w a i ha]
  by_cases h1 : i < 8 <;> by_cases h2 : i < 64 <;> simp [h1, h2]

/-! ## Breakpoint manager: characterisation -/

theorem trace_add_breakpoint_peek_fail (K : Kernel) (c : Child) (f : function_information_t)
    (h : refused K c (.PEEKTEXT f.ip) = true) :
    trace_add_breakpoint K c f
      = (false, { f with original := WORD - 1 }, c.issue (.PEEKTEXT f.ip)) := by
  simp [trace_add_breakpoint, ptrace_peektext, h]

theorem trace_add_breakpoint_peek_ok (K : Kernel) (c : Child) (f : function_information_t)
    (h : refused K c (.PEEKTEXT f.ip) = false) :
    trace_add_breakpoint K c f
      = (!(ptrace_poketext K (c.issue (.PEEKTEXT f.ip)) f.ip
            (Nat.lor (Nat.land (c.mem f.ip % WORD) HIGH_BIT_MASK) 0xCC)).1,
         { f with original := c.mem f.ip % WORD },
         (ptrace_poketext K (c.issue (.PEEKTEXT f.ip)) f.ip
            (Nat.lor (Nat.land (c.mem f.ip % WORD) HIGH_BIT_MASK) 0xCC)).2) := by
  simp [trace_add_breakpoint, ptrace_peektext, h]

/-- A successful install, step by step. -/
theorem trace_add_breakpoint_true (K : Kernel) (c : Child) (f f1 : function_information_t)
    (c1 : Child) (h : trace_add_breakpoint K c f = (true, f1, c1)) :
    refused K c (.PEEKTEXT f.ip) = false ∧
    f1 = { f with original := c.mem f.ip % WORD } ∧
    c1 = { alive := c.alive, regs := c.regs,
           mem := fun a => if a = f.ip
                   then Nat.lor (Nat.land (c.mem f.ip % WORD) HIGH_BIT_MASK) 0xCC
                   else c.mem a,
           log := c.log ++ [.PEEKTEXT f.ip,
                    .POKETEXT f.ip (Nat.lor (Nat.land (c.mem f.ip % WORD) HIGH_BIT_MASK) 0xCC)] } := by
  cases hp : refused K c (.PEEKTEXT f.ip) with
  | true => rw [trace_add_breakpoint_peek_fail K c f hp] at h; simp at h
  | false =>
    rw [trace_add_breakpoint_peek_ok K c f hp] at h
    simp only [ptrace_poketext] at h
    split at h
    · simp at h
    · simp only [Prod.mk.injEq] at h
      obtain ⟨-, h2, h3⟩ := h
      refine ⟨rfl, h2.symm, ?_⟩
      rw [← h3]
      have hlt := patch_lt (c.mem f.ip % WORD) 0xCC (by norm_num)
      simp [Child.issue, Nat.mod_eq_of_lt hlt]

/-- A successful remove, step by step. -/
theorem trace_restore_function_true (K : Kernel) (c : Child) (f : function_information_t)
    (c1 : Child) (h : trace_restore_function K c f = (true, c1)) :
    refused K c (.PEEKTEXT f.ip) = false ∧
    c1 = { alive := c.alive, regs := c.regs,
           mem := fun a => if a = f.ip
                   then Nat.lor (Nat.land (c.mem f.ip % WORD) HIGH_BIT_MASK) (Nat.land f.original 0xFF)
                   else c.mem a,
           log := c.log ++ [.PEEKTEXT f.ip,
                    .POKETEXT f.ip (Nat.lor (Nat.land (c.mem f.ip % WORD) HIGH_BIT_MASK)
                                      (Nat.land f.original 0xFF))] } := by
  have hb : Nat.land f.original 0xFF < 256 := by
    rw [land_FF]; exact Nat.mod_lt _ (by norm_num)
  have hlt := patch_lt (c.mem f.ip % WORD) _ hb
  cases hp : refused K c (.PEEKTEXT f.ip) with
  | true => simp [trace_restore_function, ptrace_peektext, hp] at h
  | false =>
    cases hq : refused K (c.issue (.PEEKTEXT f.ip))
        (.POKETEXT f.ip (Nat.lor (Nat.land (c.mem f.ip % WORD) HIGH_BIT_MASK)
          (Nat.land f.original 0xFF))) with
    | true => simp [trace_restore_function, ptrace_peektext, ptrace_poketext, hp, hq] at h
    | false =>
      simp [trace_restore_function, ptrace_peektext, ptrace_poketext, hp, hq] at h
      refine ⟨rfl, ?_⟩
      rw [← h]
      simp [Child.issue, Nat.mod_eq_of_lt hlt]

/-- Claim C4. A successful `trace_add_breakpoint` stores the word `w` read at the
entry address as `original` and leaves `(w AND NOT 0xFF) OR 0xCC` (on 64 bits)
at the entry address: byte 0 is the trap opcode `0xCC`, every other byte is
the byte of `w`, and no other word changes. When the read fails, the result
is failure, no poke is issued and the memory of the child is untouched. -/
theorem trace_add_breakpoint_spec (K : Kernel) (c : Child) (f : function_information_t) :
    ((trace_add_breakpoint K c f).1 = true →
      (trace_add_breakpoint K c f).2.1 = { f with original := c.mem f.ip % WORD } ∧
      (trace_add_breakpoint K c f).2.2.mem f.ip
        = (c.mem f.ip % WORD &&& (2 ^ 64 - 1 - 0xFF)) ||| 0xCC ∧
      (trace_add_breakpoint K c f).2.2.log
        = c.log ++ [.PEEKTEXT f.ip,
            .POKETEXT f.ip ((c.mem f.ip % WORD &&& (2 ^ 64 - 1 - 0xFF)) ||| 0xCC)] ∧
      byteOf ((trace_add_breakpoint K c f).2.2.mem f.ip) 0 = 0xCC ∧
      (∀ k, 1 ≤ k →
        byteOf ((trace_add_breakpoint K c f).2.2.mem f.ip) k = byteOf (c.mem f.ip % WORD) k) ∧
      (∀ a, a ≠ f.ip → (trace_add_breakpoint K c f).2.2.mem a = c.mem a)) ∧
    (refused K c (.PEEKTEXT f.ip) = true →
      (trace_add_breakpoint K c f).1 = false ∧
      (trace_add_breakpoint K c f).2.2.mem = c.mem ∧
      (trace_add_breakpoint K c f).2.2.log = c.log ++ [.PEEKTEXT f.ip]) := by
  constructor
  · intro h
    obtain ⟨-, h2, h3⟩ :=
      trace_add_breakpoint_true K c f (trace_add_breakpoint K c f).2.1
        (trace_add_breakpoint K c f).2.2 (by rw [← h])
    have hm : (c.mem f.ip % WORD &&& (2 ^ 64 - 1 - 0xFF)) ||| 0xCC
        = Nat.lor (Nat.land (c.mem f.ip % WORD) HIGH_BIT_MASK) 0xCC := rfl
    rw [hm]
    refine ⟨h2, ?_, ?_, ?_, ?_, ?_⟩
    · rw [h3]; simp
    · rw [h3]
    · rw [h3]; simp only [if_true]
      exact patch_byte_low _ _ (by norm_num)
    · intro k hk
      rw [h3]; simp only [if_true]
      rw [patch_byte_high _ _ k (by norm_num) hk, Nat.mod_mod]
    · intro a ha
      rw [h3]; simp [ha]
  · intro h
    rw [trace_add_breakpoint_peek_fail K c f h]
    simp [Child.issue]

/-- Install on the fresh child: the word `0x1122334455667788` at address 16
becomes `0x11223344556677CC` and is saved in the record. -/
theorem trace_add_breakpoint_spec_witness :
    (trace_add_breakpoint K_line c_fresh f_rec).1 = true ∧
    (trace_add_breakpoint K_line c_fresh f_rec).2.1.original = 0x1122334455667788 ∧
    (trace_add_breakpoint K_line c_fresh f_rec).2.2.mem 16 = 0x11223344556677CC :=
  ⟨by decide,
   (congrArg function_information_t.original
      ((trace_add_breakpoint_spec K_line c_fresh f_rec).1 (by decide)).1).trans (by decide),
   ((trace_add_breakpoint_spec K_line c_fresh f_rec).1 (by decide)).2.1.trans (by decide)⟩

/-- Claim C5. A successful `trace_restore_function` on a record with saved word `s`,
the current word at the entry address being `c`, leaves
`(c AND NOT 0xFF) OR (s AND 0xFF)` there: byte 0 is the low byte of `s`, every
other byte is the byte of `c` (whatever the upper bytes of `s` are), and no
other word changes. The record is only read, so its saved word stays as it
is: the function gives back the child alone. -/
theorem trace_restore_function_spec (K : Kernel) (c : Child) (f : function_information_t)
    (h : (trace_restore_function K c f).1 = true) :
    (trace_restore_function K c f).2.mem f.ip
      = (c.mem f.ip % WORD &&& (2 ^ 64 - 1 - 0xFF)) ||| (f.original &&& 0xFF) ∧
    (trace_restore_function K c f).2.log
      = c.log ++ [.PEEKTEXT f.ip,
          .POKETEXT f.ip ((c.mem f.ip % WORD &&& (2 ^ 64 - 1 - 0xFF)) ||| (f.original &&& 0xFF))] ∧
    byteOf ((trace_restore_function K c f).2.mem f.ip) 0 = byteOf f.original 0 ∧
    (∀ k, 1 ≤ k →
      byteOf ((trace_restore_function K c f).2.mem f.ip) k = byteOf (c.mem f.ip % WORD) k) ∧
    (∀ a, a ≠ f.ip → (trace_restore_function K c f).2.mem a = c.mem a) := by
  obtain ⟨-, h3⟩ :=
    trace_restore_function_true K c f (trace_restore_function K c f).2 (by rw [← h])
  have hm : (c.mem f.ip % WORD &&& (2 ^ 64 - 1 - 0xFF)) ||| (f.original &&& 0xFF)
      = Nat.lor (Nat.land (c.mem f.ip % WORD) HIGH_BIT_MASK) (Nat.land f.original 0xFF) := rfl
  have hb : Nat.land f.original 0xFF < 256 := by
    rw [land_FF]; exact Nat.mod_lt _ (by norm_num)
  rw [hm]
  refine ⟨?_, ?_, ?_, ?_, ?_⟩
  · rw [h3]; simp
  · rw [h3]
  · rw [h3]; simp only [if_true]
    rw [patch_byte_low _ _ hb, land_FF]
    simp [byteOf]
  · intro k hk
    rw [h3]; simp only [if_true]
    rw [patch_byte_high _ _ k hb hk, Nat.mod_mod]
  · intro a ha
    rw [h3]; simp [ha]

/-- Remove on the trapped child with a record whose saved word differs from the
current word in the upper bytes: only the low byte `0x88` is put back. -/
theorem trace_restore_function_spec_witness :
    (trace_restore_function K_line c_trap ⟨some "f", 16, 0xAABBCCDDEEFF0088⟩).1 = true ∧
    (trace_restore_function K_line c_trap ⟨some "f", 16, 0xAABBCCDDEEFF0088⟩).2.mem 16
      = 0x1122334455667788 :=
  ⟨by decide,
   (trace_restore_function_spec K_line c_trap ⟨some "f", 16, 0xAABBCCDDEEFF0088⟩
      (by decide)).1.trans (by decide)⟩

/-- Claim C3. When `trace_add_breakpoint` succeeds on a record and
`trace_restore_function` then succeeds on the record and child it left, the
word at the entry address is again the word the install read there, in each
of its bytes. -/
theorem restore_after_add_roundtrip (K : Kernel) (c c1 c2 : Child)
    (f f1 : function_information_t)
    (hadd : trace_add_breakpoint K c f = (true, f1, c1))
    (hrem : trace_restore_function K c1 f1 = (true, c2)) :
    c2.mem f.ip = c.mem f.ip % WORD ∧
    ∀ k, byteOf (c2.mem f.ip) k = byteOf (c.mem f.ip % WORD) k := by
  obtain ⟨-, hf1, hc1⟩ := trace_add_breakpoint_true K c f f1 c1 hadd
  obtain ⟨-, hc2⟩ := trace_restore_function_true K c1 f1 c2 hrem
  have hip : f1.ip = f.ip := by rw [hf1]
  have horig : f1.original = c.mem f.ip % WORD := by rw [hf1]
  have hw : c.mem f.ip % WORD < WORD := Nat.mod_lt _ (by unfold WORD; norm_num)
  have key : c2.mem f.ip = c.mem f.ip % WORD := by
    rw [hc2, hip, horig, hc1]
    simp only [if_true]
    rw [Nat.mod_eq_of_lt (patch_lt _ _ (by norm_num)), land_FF,
      patch_patch _ _ _ (by norm_num) (Nat.mod_lt _ (by norm_num)), patch_self _ hw]
  exact ⟨key, fun k => by rw [key]⟩

/-- Install then remove on the fresh child gives back `0x1122334455667788`. -/
theorem restore_after_add_roundtrip_witness :
    (trace_restore_function K_line (trace_add_breakpoint K_line c_fresh f_rec).2.2
        (trace_add_breakpoint K_line c_fresh f_rec).2.1).2.mem 16 = 0x1122334455667788 :=
  (restore_after_add_roundtrip K_line c_fresh _ _ f_rec _
    (show trace_add_breakpoint K_line c_fresh f_rec
        = (true, (trace_add_breakpoint K_line c_fresh f_rec).2.1,
            (trace_add_breakpoint K_line c_fresh f_rec).2.2) by rfl)
    (show trace_restore_function K_line (trace_add_breakpoint K_line c_fresh f_rec).2.2
          (trace_add_breakpoint K_line c_fresh f_rec).2.1
        = (true, (trace_restore_function K_line (trace_add_breakpoint K_line c_fresh f_rec).2.2
          (trace_add_breakpoint K_line c_fresh f_rec).2.1).2) by rfl)).1

/-! ## Installing every breakpoint -/

theorem trace_add_breakpoints_nil (K : Kernel) (c : Child) :
    trace_add_breakpoints K c [] = (true, [], (ptrace_cont K c).2) := rfl

theorem trace_add_breakpoints_cons (K : Kernel) (c : Child) (f : function_information_t)
    (rest : List function_information_t) :
    trace_add_breakpoints K c (f :: rest) =
      if (trace_add_breakpoint K c f).1 then
        ((trace_add_breakpoints K (trace_add_breakpoint K c f).2.2 rest).1,
         (trace_add_breakpoint K c f).2.1 ::
           (trace_add_breakpoints K (trace_add_breakpoint K c f).2.2 rest).2.1,
         (trace_add_breakpoints K (trace_add_breakpoint K c f).2.2 rest).2.2)
      else (false, (trace_add_breakpoint K c f).2.1 :: rest, kill (trace_add_breakpoint K c f).2.2) := by
  rw [trace_add_breakpoints]
  rcases h : trace_add_breakpoint K c f with ⟨b, f1, c1⟩
  cases b <;> simp

theorem arm_first_cons (K : Kernel) (c : Child) (f : function_information_t)
    (rest : List function_information_t) :
    arm_first K c (f :: rest) =
      if (trace_add_breakpoint K c f).1 then arm_first K (trace_add_breakpoint K c f).2.2 rest
      else (false, (trace_add_breakpoint K c f).2.2) := by
  rw [arm_first]
  rcases h : trace_add_breakpoint K c f with ⟨b, f1, c1⟩
  cases b <;> simp

/-- Whatever its result, an install of `f` issues only a peek and possibly a
poke at `f.ip`, writes no other word and leaves liveness alone. -/
theorem trace_add_breakpoint_frame (K : Kernel) (c : Child) (f : function_information_t) :
    (trace_add_breakpoint K c f).2.2.alive = c.alive ∧
    (∃ E, (trace_add_breakpoint K c f).2.2.log = c.log ++ E ∧
      ∀ e ∈ E, e.touches f.ip = true) ∧
    ∀ a, a ≠ f.ip → (trace_add_breakpoint K c f).2.2.mem a = c.mem a := by
  cases hp : refused K c (.PEEKTEXT f.ip) with
  | true =>
    rw [trace_add_breakpoint_peek_fail K c f hp]
    refine ⟨rfl, ⟨[.PEEKTEXT f.ip], rfl, ?_⟩, fun a _ => rfl⟩
    intro e he
    simp at he
    subst he
    simp [Request.touches]
  | false =>
    rw [trace_add_breakpoint_peek_ok K c f hp]
    simp only [ptrace_poketext]
    split
    · refine ⟨rfl, ⟨[.PEEKTEXT f.ip, .POKETEXT f.ip (Nat.lor (Nat.land (c.mem f.ip % WORD) HIGH_BIT_MASK) 0xCC)], ?_, ?_⟩, fun a _ => rfl⟩
      · simp [Child.issue]
      · intro e he
        simp at he
        rcases he with he | he <;> subst he <;> simp [Request.touches]
    · refine ⟨rfl, ⟨[.PEEKTEXT f.ip, .POKETEXT f.ip (Nat.lor (Nat.land (c.mem f.ip % WORD) HIGH_BIT_MASK) 0xCC)], ?_, ?_⟩, ?_⟩
      · simp [Child.issue]
      · intro e he
        simp at he
        rcases he with he | he <;> subst he <;> simp [Request.touches]
      · intro a ha
        simp [ha, Child.issue]

/-- Installing the records of `pre` one after the other touches the entry
addresses of `pre` only. -/
theorem arm_first_frame (K : Kernel) (pre : List function_information_t) (c : Child) :
    (arm_first K c pre).2.alive = c.alive ∧
    (∃ E, (arm_first K c pre).2.log = c.log ++ E ∧
      ∀ e ∈ E, ∃ g ∈ pre, e.touches g.ip = true) ∧
    ∀ a, (∀ g ∈ pre, a ≠ g.ip) → (arm_first K c pre).2.mem a = c.mem a := by
  induction pre generalizing c with
  | nil => exact ⟨rfl, ⟨[], by simp [arm_first], by simp⟩, fun a _ => rfl⟩
  | cons f rest ih =>
    obtain ⟨ha, ⟨E, hE, hEt⟩, hm⟩ := trace_add_breakpoint_frame K c f
    rw [arm_first_cons]
    split
    · obtain ⟨ha2, ⟨E2, hE2, hEt2⟩, hm2⟩ := ih (trace_add_breakpoint K c f).2.2
      refine ⟨by rw [ha2, ha], ⟨E ++ E2, by rw [hE2, hE, List.append_assoc], ?_⟩, ?_⟩
      · intro e he
        rcases List.mem_append.1 he with he | he
        · exact ⟨f, by simp, hEt e he⟩
        · obtain ⟨g, hg, hgt⟩ := hEt2 e he
          exact ⟨g, by simp [hg], hgt⟩
      · intro a hall
        rw [hm2 a (fun g hg => hall g (by simp [hg])), hm a (hall f (by simp))]
    · refine ⟨ha, ⟨E, hE, ?_⟩, ?_⟩
      · intro e he
        exact ⟨f, by simp, hEt e he⟩
      · intro a hall
        exact hm a (hall f (by simp))

/-- When the records of `pre` are all armed and the install of the next record
fails, `trace_add_breakpoints` stops there. -/
theorem trace_add_breakpoints_fail_at (K : Kernel) (pre : List function_information_t)
    (f : function_information_t) (post : List function_information_t) (c ci : Child)
    (hpre : arm_first K c pre = (true, ci))
    (hf : (trace_add_breakpoint K ci f).1 = false) :
    (trace_add_breakpoints K c (pre ++ f :: post)).1 = false ∧
    (trace_add_breakpoints K c (pre ++ f :: post)).2.2 = kill (trace_add_breakpoint K ci f).2.2 ∧
    (trace_add_breakpoints K c (pre ++ f :: post)).2.1.drop (pre.length + 1) = post := by
  induction pre generalizing c with
  | nil =>
    simp only [arm_first, Prod.mk.injEq, true_and] at hpre
    subst hpre
    simp [trace_add_breakpoints_cons, hf]
  | cons g rest ih =>
    rw [arm_first_cons] at hpre
    split at hpre
    · rename_i hg
      have := ih _ hpre
      simp only [List.cons_append, trace_add_breakpoints_cons, hg, if_true]
      simpa using this
    · simp at hpre

/-- When every install succeeds, the requests issued are, record after record
in table order, the peek and the poke of the armed word, then one continue. -/
theorem trace_add_breakpoints_all (K : Kernel) (tbl : List function_information_t) (c cn : Child)
    (hall : arm_first K c tbl = (true, cn)) :
    (trace_add_breakpoints K c tbl).1 = true ∧
    (trace_add_breakpoints K c tbl).2.2 = (ptrace_cont K cn).2 ∧
    (trace_add_breakpoints K c tbl).2.1.map (fun g => (g.name, g.ip)) = tbl.map (fun g => (g.name, g.ip)) ∧
    cn.log = c.log ++ ((trace_add_breakpoints K c tbl).2.1.flatMap install_requests) := by
  induction tbl generalizing c with
  | nil =>
    simp only [arm_first, Prod.mk.injEq, true_and] at hall
    subst hall
    simp [trace_add_breakpoints_nil]
  | cons g rest ih =>
    rw [arm_first_cons] at hall
    split at hall
    · rename_i hg
      obtain ⟨h1, h2, h3, h4⟩ := ih _ hall
      obtain ⟨-, hf1, hc1⟩ := trace_add_breakpoint_true K c g (trace_add_breakpoint K c g).2.1
        (trace_add_breakpoint K c g).2.2 (by rw [← hg])
      simp only [trace_add_breakpoints_cons, hg, if_true]
      refine ⟨h1, h2, ?_, ?_⟩
      · simp only [List.map_cons, h3]
        rw [hf1]
      · rw [h4, List.flatMap_cons, ← List.append_assoc]
        congr 1
        rw [hc1]
        simp only [install_requests]
        rw [hf1]
    · simp at hall

/-- The requests of an install: the peek alone, or the peek and the poke. -/
theorem trace_add_breakpoint_log (K : Kernel) (c : Child) (f : function_information_t) :
    (trace_add_breakpoint K c f).2.2.log = c.log ++ [.PEEKTEXT f.ip] ∨
    ∃ d, (trace_add_breakpoint K c f).2.2.log = c.log ++ [.PEEKTEXT f.ip, .POKETEXT f.ip d] := by
  cases hp : refused K c (.PEEKTEXT f.ip) with
  | true =>
    left
    rw [trace_add_breakpoint_peek_fail K c f hp]
    rfl
  | false =>
    right
    refine ⟨Nat.lor (Nat.land (c.mem f.ip % WORD) HIGH_BIT_MASK) 0xCC, ?_⟩
    rw [trace_add_breakpoint_peek_ok K c f hp]
    simp only [ptrace_poketext]
    split <;> simp [Child.issue]

/-- Claim C8. For every table `pre ++ f :: post` (so `f` is record `i = pre.length`):
when the installs of the records of `pre` succeed and the install of `f`
fails, `trace_add_breakpoints` returns failure with the child killed and the
later records as they were; the requests it issued are exactly the peek and
poke of each record before `i` in table order, the peek (and possibly the
poke) of record `i`, and the kill: there is no continue among them and
nothing is issued for a record after `i`. Hence every read or write is at
the entry address of a record of index at most `i`, and for every later
record whose entry address is not also that of one of those (entry
addresses are unique across a function table) no request reads or writes at
its entry address and the word there is unchanged. When every install
succeeds, the result is success, names and entry addresses are kept, and the
requests issued are exactly, record after record in table order, the peek
and the poke of the armed word, followed by exactly one continue. -/
theorem trace_add_breakpoints_spec (K : Kernel) (c : Child) :
    (∀ (pre : List function_information_t) (f : function_information_t)
        (post : List function_information_t) (ci : Child),
      arm_first K c pre = (true, ci) →
      (trace_add_breakpoint K ci f).1 = false →
      (trace_add_breakpoints K c (pre ++ f :: post)).1 = false ∧
      (trace_add_breakpoints K c (pre ++ f :: post)).2.2.alive = false ∧
      (trace_add_breakpoints K c (pre ++ f :: post)).2.1.drop (pre.length + 1) = post ∧
      ∃ (armed : List function_information_t) (Ef : List Request),
        armed.map (fun g => (g.name, g.ip)) = pre.map (fun g => (g.name, g.ip)) ∧
        (Ef = [.PEEKTEXT f.ip] ∨ ∃ d, Ef = [.PEEKTEXT f.ip, .POKETEXT f.ip d]) ∧
        (trace_add_breakpoints K c (pre ++ f :: post)).2.2.log
          = c.log ++ (armed.flatMap install_requests ++ Ef) ++ [.KILL] ∧
        Request.CONT ∉ armed.flatMap install_requests ++ Ef ∧
        (∀ e ∈ armed.flatMap install_requests ++ Ef,
          ∃ g ∈ pre ++ [f], e.touches g.ip = true) ∧
        (∀ g ∈ post, g.ip ∉ (pre ++ [f]).map (fun g0 => g0.ip) →
          (∀ e ∈ armed.flatMap install_requests ++ Ef, e.touches g.ip = false) ∧
          (trace_add_breakpoints K c (pre ++ f :: post)).2.2.mem g.ip = c.mem g.ip)) ∧
    (∀ (tbl : List function_information_t) (cn : Child),
      arm_first K c tbl = (true, cn) →
      (trace_add_breakpoints K c tbl).1 = true ∧
      (trace_add_breakpoints K c tbl).2.1.map (fun g => (g.name, g.ip))
        = tbl.map (fun g => (g.name, g.ip)) ∧
      (trace_add_breakpoints K c tbl).2.2.log
        = c.log ++ (trace_add_breakpoints K c tbl).2.1.flatMap install_requests ++ [.CONT] ∧
      ((trace_add_breakpoints K c tbl).2.2.log.drop c.log.length).count .CONT = 1 ∧
      (trace_add_breakpoints K c tbl).2.2.alive = c.alive) := by
  constructor
  · intro pre f post ci hpre hf
    obtain ⟨h1, h2, h3⟩ := trace_add_breakpoints_fail_at K pre f post c ci hpre hf
    obtain ⟨-, -, hmap, hlog⟩ := trace_add_breakpoints_all K pre c ci hpre
    obtain ⟨-, -, hM1⟩ := arm_first_frame K pre c
    rw [hpre] at hM1
    simp only at hM1
    obtain ⟨-, -, hM2⟩ := trace_add_breakpoint_frame K ci f
    have hEf : ∃ Ef, (Ef = [.PEEKTEXT f.ip] ∨ ∃ d, Ef = [.PEEKTEXT f.ip, .POKETEXT f.ip d]) ∧
        (trace_add_breakpoint K ci f).2.2.log = ci.log ++ Ef := by
      rcases trace_add_breakpoint_log K ci f with h | ⟨d, h⟩
      · exact ⟨_, Or.inl rfl, h⟩
      · exact ⟨_, Or.inr ⟨d, rfl⟩, h⟩
    obtain ⟨Ef, hshape, hEf⟩ := hEf
    have htouch : ∀ e ∈ (trace_add_breakpoints K c pre).2.1.flatMap install_requests ++ Ef,
        ∃ g ∈ pre ++ [f], e.touches g.ip = true := by
      intro e he
      rcases List.mem_append.1 he with he | he
      · obtain ⟨g, hg, heg⟩ := List.mem_flatMap.1 he
        have hip : g.ip ∈ pre.map (fun g0 => g0.ip) := by
          have : (g.name, g.ip) ∈ pre.map (fun g0 => (g0.name, g0.ip)) := by
            rw [← hmap]
            exact List.mem_map.2 ⟨g, hg, rfl⟩
          obtain ⟨g0, hg0, hg0e⟩ := List.mem_map.1 this
          exact List.mem_map.2 ⟨g0, hg0, (Prod.mk.inj hg0e).2⟩
        obtain ⟨g0, hg0, hg0e⟩ := List.mem_map.1 hip
        refine ⟨g0, by simp [hg0], ?_⟩
        simp only [install_requests, List.mem_cons, List.mem_singleton, List.not_mem_nil,
          or_false] at heg
        rcases heg with heg | heg <;> subst heg <;> simp [Request.touches, hg0e]
      · refine ⟨f, by simp, ?_⟩
        rcases hshape with h | ⟨d, h⟩ <;> subst h <;> simp at he
        · subst he; simp [Request.touches]
        · rcases he with he | he <;> subst he <;> simp [Request.touches]
    refine ⟨h1, by rw [h2]; rfl, h3, (trace_add_breakpoints K c pre).2.1, Ef, hmap, hshape,
      ?_, ?_, htouch, ?_⟩
    · rw [h2]
      simp [kill, Child.issue, hEf, hlog]
    · intro hc
      obtain ⟨g, -, hg⟩ := htouch _ hc
      simp [Request.touches] at hg
    · intro g hg hfresh
      have hne : ∀ g0 ∈ pre ++ [f], g0.ip ≠ g.ip := by
        intro g0 hg0 heq
        exact hfresh (List.mem_map.2 ⟨g0, hg0, heq⟩)
      constructor
      · intro e he
        obtain ⟨g0, hg0, ht⟩ := htouch e he
        have := hne g0 hg0
        cases e <;> simp_all [Request.touches]
      · rw [h2]
        show (trace_add_breakpoint K ci f).2.2.mem g.ip = c.mem g.ip
        rw [hM2 g.ip (fun h => hne f (by simp) h.symm),
          hM1 g.ip (fun g0 hg0 h => hne g0 (by simp [hg0]) h.symm)]
  · intro tbl cn hall
    obtain ⟨h1, h2, h3, h4⟩ := trace_add_breakpoints_all K tbl c cn hall
    have hlog : (trace_add_breakpoints K c tbl).2.2.log
        = c.log ++ (trace_add_breakpoints K c tbl).2.1.flatMap install_requests ++ [.CONT] := by
      rw [h2]
      simp [ptrace_cont, Child.issue, h4]
    refine ⟨h1, h3, hlog, ?_, ?_⟩
    · rw [hlog, List.append_assoc, List.drop_left]
      rw [List.count_append]
      have : ∀ l : List function_information_t,
          List.count Request.CONT (l.flatMap install_requests) = 0 := by
        intro l
        induction l with
        | nil => simp
        | cons g rest ih =>
          rw [List.flatMap_cons, List.count_append, ih]
          simp [install_requests]
      rw [this]
      simp
    · rw [h2]
      have := (arm_first_frame K tbl c).1
      rw [hall] at this
      simpa [ptrace_cont, Child.issue] using this

/-- On a three-record table where the peek at the second entry address (32)
fails, the first record is armed, the child is killed and the third record
is not touched. -/
theorem trace_add_breakpoints_spec_witness :
    (trace_add_breakpoints K_fault32 c_fresh
        ([⟨some "f", 16, 0⟩] ++ ⟨some "g", 32, 0⟩ :: [⟨some "h", 48, 0⟩])).1 = false ∧
    (trace_add_breakpoints K_fault32 c_fresh
        ([⟨some "f", 16, 0⟩] ++ ⟨some "g", 32, 0⟩ :: [⟨some "h", 48, 0⟩])).2.2.alive = false :=
  have h := (trace_add_breakpoints_spec K_fault32 c_fresh).1
    [⟨some "f", 16, 0⟩] ⟨some "g", 32, 0⟩ [⟨some "h", 48, 0⟩]
    (arm_first K_fault32 c_fresh [⟨some "f", 16, 0⟩]).2 (by rfl) (by rfl)
  ⟨h.1, h.2.1⟩


/-! ## Dispatch -/

theorem find_function_info_from_first (ip : Nat) (pre : List function_information_t)
    (f : function_information_t) (post : List function_information_t) (i : Nat)
    (hf : f.ip = (ip + WORD - 1) % WORD)
    (hpre : ∀ g ∈ pre, g.ip ≠ (ip + WORD - 1) % WORD) :
    find_function_info_from ip (pre ++ f :: post) i = some (i + pre.length, f) := by
  induction pre generalizing i with
  | nil => simp [find_function_info_from, hf]
  | cons g rest ih =>
    have hg : g.ip ≠ (ip + WORD - 1) % WORD := hpre g (by simp)
    have step : find_function_info_from ip (g :: (rest ++ f :: post)) i
        = find_function_info_from ip (rest ++ f :: post) (i + 1) := by
      simp only [find_function_info_from, hg, if_false]
    rw [List.cons_append, step, ih (i + 1) (fun g0 hg0 => hpre g0 (by simp [hg0]))]
    simp only [List.length_cons]
    congr 2
    omega

theorem find_function_info_from_none (ip : Nat) (tbl : List function_information_t) (i : Nat)
    (h : ∀ g ∈ tbl, g.ip ≠ (ip + WORD - 1) % WORD) :
    find_function_info_from ip tbl i = none := by
  induction tbl generalizing i with
  | nil => rfl
  | cons g rest ih =>
    have hg : g.ip ≠ (ip + WORD - 1) % WORD := h g (by simp)
    simp only [find_function_info_from, hg, if_false]
    exact ih (i + 1) (fun g0 hg0 => h g0 (by simp [hg0]))

theorem trace_get_child_ip_ok (K : Kernel) (c : Child) (ip : Nat)
    (h : refused K c .GETREGS = false) :
    trace_get_child_ip K c ip = (true, c.regs.rip % WORD, c.issue .GETREGS) := by
  simp [trace_get_child_ip, ptrace_getregs, h]

theorem trace_get_child_ip_fail (K : Kernel) (c : Child) (ip : Nat)
    (h : refused K c .GETREGS = true) :
    trace_get_child_ip K c ip = (false, ip, c.issue .GETREGS) := by
  simp [trace_get_child_ip, ptrace_getregs, h]

/-- Claim C9, as amended. Let `pc` be the program counter read at a trap and
`pc - 1` be taken modulo `2 ^ 64`. If the table is `pre ++ f :: post` with
`f` the first record whose entry address is `pc - 1`, `trace_function_call`
runs `trace_count_instructions` on `f` (in the child as the register read
left it) and returns its result, the record the engine leaves replacing
`f` in the table. If no record has entry address `pc - 1`, it issues one
continue and nothing else, returns success exactly when that request
succeeds, produces no count and changes neither the memory or registers
of the child nor the table. -/
theorem trace_function_call_spec (K : Kernel) (fuel : Nat) (c : Child) (junk : Nat)
    (hregs : refused K c .GETREGS = false) :
    (∀ (pre : List function_information_t) (f : function_information_t)
        (post : List function_information_t),
      f.ip = (c.regs.rip % WORD + WORD - 1) % WORD →
      (∀ g ∈ pre, g.ip ≠ (c.regs.rip % WORD + WORD - 1) % WORD) →
      trace_function_call K fuel c (pre ++ f :: post) junk
        = (trace_count_instructions K fuel (c.issue .GETREGS) f junk junk).map
            (fun r => ⟨r.ret, some r.count, pre ++ r.func_info :: post, r.child⟩)) ∧
    (∀ (tbl : List function_information_t),
      (∀ g ∈ tbl, g.ip ≠ (c.regs.rip % WORD + WORD - 1) % WORD) →
      ∃ r, trace_function_call K fuel c tbl junk = some r ∧
        r.ret = !refused K (c.issue .GETREGS) .CONT ∧
        r.count = none ∧
        r.function_infos = tbl ∧
        r.child.log = c.log ++ [.GETREGS, .CONT] ∧
        r.child.mem = c.mem ∧ r.child.regs = c.regs ∧ r.child.alive = c.alive) := by
  constructor
  · intro pre f post hf hpre
    have hfind := find_function_info_from_first (c.regs.rip % WORD) pre f post 0 hf hpre
    simp only [trace_function_call, trace_get_child_ip_ok K c junk hregs,
      trace_find_function_info, hfind]
    cases trace_count_instructions K fuel (c.issue .GETREGS) f junk junk with
    | none => rfl
    | some r => simp
  · intro tbl hnone
    have hfind := find_function_info_from_none (c.regs.rip % WORD) tbl 0 hnone
    simp only [trace_function_call, trace_get_child_ip_ok K c junk hregs,
      trace_find_function_info, hfind, ptrace_cont]
    cases hc : refused K (c.issue .GETREGS) .CONT <;> simp [Child.issue]

/-- A trap at program counter 17 with a table whose only record is at entry
address 32: the tracer continues the child and returns success. -/
theorem trace_function_call_spec_witness :
    ∃ r, trace_function_call K_line 10 c_trap [⟨some "g", 32, 0⟩] 0 = some r ∧
      r.ret = true ∧ r.count = none ∧ r.child.log = [.GETREGS, .CONT] :=
  have h := (trace_function_call_spec K_line 10 c_trap 0 (by rfl)).2
    [⟨some "g", 32, 0⟩] (by decide)
  h.elim fun r hr => ⟨r, hr.1, hr.2.1, hr.2.2.1, hr.2.2.2.2.1⟩

/-- Claim C9 as stated fails: with no record at entry address `pc - 1 = 16` and
a kernel that fails the continue request, `trace_function_call` returns
failure, not success. -/
theorem trace_function_call_cont_failure :
    trace_find_function_info [⟨some "g", 32, 0⟩] 17 = none ∧
    (trace_get_child_ip K_nocont c_trap 0).1 = true ∧
    (trace_get_child_ip K_nocont c_trap 0).2.1 = 17 ∧
    (trace_function_call K_nocont 10 c_trap [⟨some "g", 32, 0⟩] 0).map (fun r => r.ret)
      = some false := by
  decide


/-! ## The counting engine -/

theorem trace_count_instructions_success (K : Kernel) (fuel : Nat) (c : Child)
    (f : function_information_t) (jra jip : Nat) (r : CountResult)
    (hrun : trace_count_instructions K fuel c f jra jip = some r) (hret : r.ret = true) :
    ∃ regs c2 c3 c4 c5 f1 c6 c7 c8 c9 f2 c10 regs2 c11 c12,
      ptrace_getregs K (trace_get_return_address K c jra).2.2 = (some regs, c2) ∧
      ptrace_setregs K c2 { regs with rip := (regs.rip + WORD - 1) % WORD } = (true, c3) ∧
      trace_restore_function K c3 f = (true, c4) ∧
      trace_single_step K c4 = (true, c5) ∧
      trace_add_breakpoint K c5 f = (true, f1, c6) ∧
      count_loop K (trace_get_return_address K c jra).2.1 fuel c6 jip 1 = some (true, r.count, c7) ∧
      trace_restore_function K c7 f1 = (true, c8) ∧
      single_step_and_wait K c8 = (true, c9) ∧
      trace_add_breakpoint K c9 f1 = (true, f2, c10) ∧
      ptrace_getregs K c10 = (some regs2, c11) ∧
      ptrace_cont K c11 = (true, c12) ∧
      r.func_info = f2 ∧ r.child = c12 := by
  unfold trace_count_instructions at hrun
  split at hrun
  rename_i x0 ra c1 h0
  split at hrun
  · simp at hrun; rw [← hrun] at hret; simp at hret
  rename_i x1 regs c2 h1
  split at hrun
  · simp at hrun; rw [← hrun] at hret; simp at hret
  rename_i x2 c3 h2
  split at hrun
  · simp at hrun; rw [← hrun] at hret; simp at hret
  rename_i x3 c4 h3
  split at hrun
  · simp at hrun; rw [← hrun] at hret; simp at hret
  rename_i x4 c5 h4
  split at hrun
  · simp at hrun; rw [← hrun] at hret; simp at hret
  rename_i x5 f1 c6 h5
  split at hrun
  · simp at hrun
  · simp at hrun; rw [← hrun] at hret; simp at hret
  rename_i x6 count c7 h6
  split at hrun
  · simp at hrun; rw [← hrun] at hret; simp at hret
  rename_i x7 c8 h7
  split at hrun
  · simp at hrun; rw [← hrun] at hret; simp at hret
  rename_i x8 c9 h8
  split at hrun
  · simp at hrun; rw [← hrun] at hret; simp at hret
  rename_i x9 f2 c10 h9
  split at hrun
  · simp at hrun; rw [← hrun] at hret; simp at hret
  rename_i x10 regs2 c11 h10
  split at hrun
  · simp at hrun; rw [← hrun] at hret; simp at hret
  rename_i x11 c12 h11
  simp at hrun
  subst hrun
  rw [h0] at *
  exact ⟨regs, c2, c3, c4, c5, f1, c6, c7, c8, c9, f2, c10, regs2, c11, c12,
    h1, h2, h3, h4, h5, h6, h7, h8, h9, h10, h11, rfl, rfl⟩

theorem ptrace_getregs_snd (K : Kernel) (c : Child) :
    (ptrace_getregs K c).2 = c.issue .GETREGS := by
  unfold ptrace_getregs
  split <;> rfl

theorem ptrace_getregs_some (K : Kernel) (c c1 : Child) (regs : user_regs_struct)
    (h : ptrace_getregs K c = (some regs, c1)) :
    refused K c .GETREGS = false ∧ regs = ⟨c.regs.rip % WORD, c.regs.rsp % WORD⟩ ∧
    c1 = c.issue .GETREGS := by
  unfold ptrace_getregs at h
  split at h
  · simp at h
  · rename_i hr
    simp only [Prod.mk.injEq, Option.some.injEq] at h
    exact ⟨by simpa using hr, h.1.symm, h.2.symm⟩

theorem ptrace_setregs_true (K : Kernel) (c c1 : Child) (regs : user_regs_struct)
    (h : ptrace_setregs K c regs = (true, c1)) :
    c1 = { alive := c.alive, regs := regs, mem := c.mem, log := c.log ++ [.SETREGS regs] } := by
  unfold ptrace_setregs at h
  split at h
  · simp at h
  · simp only [Prod.mk.injEq, true_and] at h
    rw [← h]; rfl

theorem single_step_and_wait_true (K : Kernel) (c c1 : Child)
    (h : single_step_and_wait K c = (true, c1)) :
    refused K c .SINGLESTEP = false ∧
    ∃ regs mem, K.step c = .stopped regs mem ∧
      c1 = { alive := c.alive, regs := regs, mem := mem, log := c.log ++ [.SINGLESTEP] } := by
  unfold single_step_and_wait at h
  split at h
  · simp at h
  · rename_i hr
    split at h
    · rename_i regs mem hs
      simp only [Prod.mk.injEq, true_and] at h
      exact ⟨by simpa using hr, regs, mem, hs, by rw [← h]; rfl⟩
    · simp at h
    · simp at h

theorem ptrace_cont_snd (K : Kernel) (c : Child) :
    (ptrace_cont K c).2 = c.issue .CONT := rfl

/-- Reading the return address changes nothing in the child and issues only
register reads and peeks. -/
theorem trace_get_return_address_frame (K : Kernel) (c : Child) (addr : Nat) :
    (trace_get_return_address K c addr).2.2.alive = c.alive ∧
    (trace_get_return_address K c addr).2.2.regs = c.regs ∧
    (trace_get_return_address K c addr).2.2.mem = c.mem ∧
    ∃ E, (trace_get_return_address K c addr).2.2.log = c.log ++ E ∧
      ∀ e ∈ E, e = .GETREGS ∨ ∃ a, e = .PEEKTEXT a := by
  unfold trace_get_return_address ptrace_getregs ptrace_peektext
  split
  · rename_i h
    split at h
    · simp only [Prod.mk.injEq] at h
      rw [← h.2]
      exact ⟨rfl, rfl, rfl, [.GETREGS], rfl, by simp⟩
    · simp at h
  · rename_i regs c1 h
    split at h
    · simp at h
    · simp only [Prod.mk.injEq, Option.some.injEq] at h
      rw [← h.2]
      split
      rename_i x errno data c2 h2
      split at h2
      · simp only [Prod.mk.injEq] at h2
        rw [← h2.2.2, ← h2.1]
        simp only [if_true]
        exact ⟨rfl, rfl, rfl, [.GETREGS, .PEEKTEXT regs.rsp], by simp [Child.issue], by simp⟩
      · simp only [Prod.mk.injEq] at h2
        rw [← h2.2.2, ← h2.1]
        simp only [Bool.false_eq_true, if_false]
        exact ⟨rfl, rfl, rfl, [.GETREGS, .PEEKTEXT regs.rsp], by simp [Child.issue], by simp⟩

/-- A successful read of the return address gives the word on top of the stack. -/
theorem trace_get_return_address_true (K : Kernel) (c : Child) (addr : Nat)
    (h : (trace_get_return_address K c addr).1 = true) :
    refused K c .GETREGS = false ∧
    (trace_get_return_address K c addr).2.1 = c.mem (c.regs.rsp % WORD) % WORD := by
  cases hg : refused K c .GETREGS with
  | true => simp [trace_get_return_address, ptrace_getregs, hg] at h
  | false =>
    refine ⟨rfl, ?_⟩
    cases hp : refused K (c.issue .GETREGS) (.PEEKTEXT (c.regs.rsp % WORD)) with
    | true => simp [trace_get_return_address, ptrace_getregs, ptrace_peektext, hg, hp] at h
    | false =>
      simp [trace_get_return_address, ptrace_getregs, ptrace_peektext, hg, hp]
      rfl

theorem after_rounds_succ (K : Kernel) (n : Nat) (c c2 : Child)
    (h : trace_single_step K (c.issue .GETREGS) = (true, c2)) :
    after_rounds K (n + 1) c = after_rounds K n c2 := by
  rw [after_rounds, ptrace_getregs_snd, h]

/-- The counting loop, when register reads succeed: it leaves through `break`
after the first round in which the program counter is the return address. -/
theorem count_loop_true (K : Kernel) (ra : Nat) (hregs : ∀ s, K.fails s .GETREGS = false)
    (fuel : Nat) (c : Child) (ip count n : Nat) (c1 : Child)
    (h : count_loop K ra fuel c ip count = some (true, n, c1)) (halive : c.alive = true) :
    count ≤ n ∧
    (∃ s, after_rounds K (n - count) c = some s ∧ s.regs.rip % WORD = ra) ∧
    ∀ m, m < n - count → ∃ s, after_rounds K m c = some s ∧ s.regs.rip % WORD ≠ ra := by
  induction fuel generalizing c ip count with
  | zero => simp [count_loop] at h
  | succ fuel ih =>
    have hr : refused K c .GETREGS = false := by simp [refused, halive, hregs]
    rw [count_loop, trace_get_child_ip_ok K c ip hr] at h
    simp only at h
    split at h
    · rename_i heq
      simp only [Option.some.injEq, Prod.mk.injEq, true_and] at h
      obtain ⟨hn, -⟩ := h
      subst hn
      refine ⟨le_refl _, ⟨c, by simp [after_rounds], heq⟩, ?_⟩
      intro m hm
      omega
    · rename_i hne
      split at h
      · simp at h
      · rename_i c2 hs
        obtain ⟨-, regs, mem, -, hc2⟩ := single_step_and_wait_true K _ c2 hs
        have halive2 : c2.alive = true := by rw [hc2]; exact halive
        obtain ⟨hle, ⟨s, hs1, hs2⟩, hall⟩ := ih c2 _ _ h halive2
        refine ⟨by omega, ⟨s, ?_, hs2⟩, ?_⟩
        · have : n - count = (n - (count + 1)) + 1 := by omega
          rw [this, after_rounds_succ K _ c c2 hs]
          exact hs1
        · intro m hm
          cases m with
          | zero => exact ⟨c, by simp [after_rounds], hne⟩
          | succ m =>
            rw [after_rounds_succ K _ c c2 hs]
            exact hall m (by omega)

/-- The counting loop only appends to the request history, and it leaves the
word at `a` alone when single-steps do. -/
theorem count_loop_frame (K : Kernel) (ra a : Nat)
    (hstep : ∀ s regs mem, K.step s = .stopped regs mem → mem a = s.mem a)
    (fuel : Nat) (c : Child) (ip count : Nat) (b : Bool) (n : Nat) (c1 : Child)
    (h : count_loop K ra fuel c ip count = some (b, n, c1)) :
    c1.mem a = c.mem a ∧ ∃ E, c1.log = c.log ++ E := by
  induction fuel generalizing c ip count with
  | zero => simp [count_loop] at h
  | succ fuel ih =>
    rw [count_loop] at h
    have hsnd : (trace_get_child_ip K c ip).2.2 = c.issue .GETREGS := by
      unfold trace_get_child_ip
      have := ptrace_getregs_snd K c
      split <;> simp_all
    rcases hg : trace_get_child_ip K c ip with ⟨ok, ip1, cg⟩
    rw [hg] at h hsnd
    simp only at h hsnd
    subst hsnd
    split at h
    · simp only [Option.some.injEq, Prod.mk.injEq] at h
      rw [← h.2.2]
      exact ⟨rfl, [.GETREGS], rfl⟩
    · split at h
      · rename_i c2 hs
        simp only [Option.some.injEq, Prod.mk.injEq] at h
        rw [← h.2.2]
        unfold trace_single_step single_step_and_wait at hs
        split at hs
        · simp only [Prod.mk.injEq, true_and] at hs
          rw [← hs]
          exact ⟨rfl, [.GETREGS, .SINGLESTEP], by simp [Child.issue]⟩
        · split at hs
          · simp at hs
          · simp only [Prod.mk.injEq, true_and] at hs
            rw [← hs]
            exact ⟨rfl, [.GETREGS, .SINGLESTEP], by simp [Child.issue]⟩
          · simp only [Prod.mk.injEq, true_and] at hs
            rw [← hs]
            exact ⟨rfl, [.GETREGS, .SINGLESTEP], by simp [Child.issue]⟩
      · rename_i c2 hs
        obtain ⟨-, regs, mem, hk, hc2⟩ := single_step_and_wait_true K _ c2 hs
        obtain ⟨hm, E, hE⟩ := ih c2 _ _ h
        refine ⟨?_, [.GETREGS, .SINGLESTEP] ++ E, ?_⟩
        · rw [hm, hc2]
          exact hstep (c.issue .GETREGS) regs mem hk
        · rw [hE, hc2]
          simp [Child.issue]


theorem refused_false_alive (K : Kernel) (c : Child) (r : Request)
    (h : refused K c r = false) : c.alive = true := by
  unfold refused at h
  cases ha : c.alive <;> simp_all

/-- In a successful run the counting loop starts in `loop_entry`, with the child
alive. -/
theorem trace_count_instructions_loop_entry (K : Kernel) (fuel : Nat) (c : Child)
    (f : function_information_t) (jra jip : Nat) (r : CountResult)
    (hrun : trace_count_instructions K fuel c f jra jip = some r) (hret : r.ret = true) :
    (loop_entry K c f jra).alive = true ∧
    ∃ c7, count_loop K (trace_get_return_address K c jra).2.1 fuel (loop_entry K c f jra) jip 1
      = some (true, r.count, c7) := by
  obtain ⟨regs, c2, c3, c4, c5, f1, c6, c7, c8, c9, f2, c10, regs2, c11, c12,
    h1, h2, h3, h4, h5, h6, -⟩ := trace_count_instructions_success K fuel c f jra jip r hrun hret
  obtain ⟨hr1, hregs, hc2⟩ := ptrace_getregs_some K _ c2 regs h1
  have hentry : loop_entry K c f jra = c6 := by
    simp only [loop_entry, replay_state, h1]
    rw [hregs] at h2
    simp only at h2
    rw [h2]
    simp only [h3, h4, h5]
  have hc3 := ptrace_setregs_true K c2 c3 _ h2
  obtain ⟨-, hc4⟩ := trace_restore_function_true K c3 f c4 h3
  obtain ⟨-, regs5, mem5, -, hc5⟩ := single_step_and_wait_true K c4 c5 h4
  obtain ⟨-, -, hc6⟩ := trace_add_breakpoint_true K c5 f f1 c6 h5
  rw [hentry]
  refine ⟨?_, c7, h6⟩
  have a6 : c6.alive = c5.alive := by rw [hc6]
  have a5 : c5.alive = c4.alive := by rw [hc5]
  have a4 : c4.alive = c3.alive := by rw [hc4]
  have a3 : c3.alive = c2.alive := by rw [hc3]
  have a2 : c2.alive = (trace_get_return_address K c jra).2.2.alive := by rw [hc2]; rfl
  rw [a6, a5, a4, a3, a2]
  exact refused_false_alive K _ _ hr1

/-- The count when the read of the return address succeeds. In every run of
`trace_count_instructions` that returns success, with register reads never
failing and the read of the word on top of the stack at entry succeeding,
with value `ra`, the reported count `n` satisfies `n ≥ 1`, the program
counter after `n` single-steps from the rewound entry address is `ra`, and
after each of the steps `1 .. n - 1` it is not `ra`: the count is the least
such `n ≥ 1`. -/
theorem trace_count_instructions_count (K : Kernel) (fuel : Nat) (c : Child)
    (f : function_information_t) (jra jip : Nat)
    (hregs : ∀ s, K.fails s .GETREGS = false)
    (hstack : (trace_get_return_address K c jra).1 = true)
    (hret : (trace_count_instructions K fuel c f jra jip).map (fun r => r.ret) = some true) :
    ∃ r, trace_count_instructions K fuel c f jra jip = some r ∧
      1 ≤ r.count ∧
      pc_after_steps K c f jra r.count = some (c.mem (c.regs.rsp % WORD) % WORD) ∧
      ∀ m, 1 ≤ m → m < r.count →
        ∃ p, pc_after_steps K c f jra m = some p ∧ p ≠ c.mem (c.regs.rsp % WORD) % WORD := by
  cases hrun : trace_count_instructions K fuel c f jra jip with
  | none => simp [hrun] at hret
  | some r =>
    have hr : r.ret = true := by simpa [hrun] using hret
    obtain ⟨halive, c7, hloop⟩ :=
      trace_count_instructions_loop_entry K fuel c f jra jip r hrun hr
    obtain ⟨-, hra⟩ := trace_get_return_address_true K c jra hstack
    rw [hra] at hloop
    obtain ⟨hle, ⟨s, hs1, hs2⟩, hall⟩ :=
      count_loop_true K _ hregs fuel _ jip 1 r.count c7 hloop halive
    refine ⟨r, rfl, hle, ?_, ?_⟩
    · simp [pc_after_steps, hs1, hs2]
    · intro m hm1 hm2
      obtain ⟨s2, hs3, hs4⟩ := hall (m - 1) (by omega)
      exact ⟨s2.regs.rip % WORD, by simp [pc_after_steps, hs3], hs4⟩

/-- The trapped child with return address 19 and entry address 16, executing
one-byte instructions: the count is 3, the program counter being 17, 18, 19
after the steps 1, 2, 3. -/
theorem trace_count_instructions_count_witness :
    ∃ r, trace_count_instructions K_line 10 c_trap f_rec 0 0 = some r ∧
      1 ≤ r.count ∧
      pc_after_steps K_line c_trap f_rec 0 r.count = some 19 ∧
      ∀ m, 1 ≤ m → m < r.count →
        ∃ p, pc_after_steps K_line c_trap f_rec 0 m = some p ∧ p ≠ 19 :=
  trace_count_instructions_count K_line 10 c_trap f_rec 0 0 (fun _ => rfl) (by decide) (by decide)

/-- The very run of the witness above: the engine returns success with count 3. -/
theorem trace_count_instructions_count_value :
    (trace_count_instructions K_line 10 c_trap f_rec 0 0).map (fun r => (r.ret, r.count))
      = some (true, 3) := by
  decide


/-! ## Re-arming -/

/-- Removing the breakpoint from an armed site puts the saved word back. -/
theorem trace_restore_function_armed (K : Kernel) (c c1 : Child) (f : function_information_t)
    (w : Nat) (hw : w < WORD)
    (harmed : c.mem f.ip = Nat.lor (Nat.land w HIGH_BIT_MASK) 0xCC)
    (hsaved : f.original = w)
    (h : trace_restore_function K c f = (true, c1)) :
    c1.mem f.ip = w ∧ c1.regs = c.regs ∧
    c1.log = c.log ++ [.PEEKTEXT f.ip, .POKETEXT f.ip w] := by
  obtain ⟨-, hc1⟩ := trace_restore_function_true K c f c1 h
  have key : Nat.lor (Nat.land (c.mem f.ip % WORD) HIGH_BIT_MASK) (Nat.land f.original 0xFF) = w := by
    rw [harmed, hsaved, Nat.mod_eq_of_lt (patch_lt _ _ (by norm_num)), land_FF,
      patch_patch _ _ _ (by norm_num) (Nat.mod_lt _ (by norm_num)), patch_self _ hw]
  rw [key] at hc1
  rw [hc1]
  simp

/-- Installing the breakpoint on a site that holds the saved word arms it and
leaves the record as it is. -/
theorem trace_add_breakpoint_rearm (K : Kernel) (c c1 : Child) (f f1 : function_information_t)
    (w : Nat) (hw : w < WORD) (hmem : c.mem f.ip = w) (hsaved : f.original = w)
    (h : trace_add_breakpoint K c f = (true, f1, c1)) :
    f1 = f ∧ c1.mem f.ip = Nat.lor (Nat.land w HIGH_BIT_MASK) 0xCC ∧ c1.regs = c.regs ∧
    ∃ E, c1.log = c.log ++ E := by
  obtain ⟨-, hf1, hc1⟩ := trace_add_breakpoint_true K c f f1 c1 h
  rw [hmem, Nat.mod_eq_of_lt hw] at hf1 hc1
  refine ⟨?_, ?_, ?_, ?_⟩
  · rw [hf1, ← hsaved]
  · rw [hc1]; simp
  · rw [hc1]
  · rw [hc1]; exact ⟨_, rfl⟩

theorem single_step_and_wait_frame (K : Kernel) (c c1 : Child) (a : Nat)
    (hstep : ∀ s regs mem, K.step s = .stopped regs mem → mem a = s.mem a)
    (h : single_step_and_wait K c = (true, c1)) :
    c1.mem a = c.mem a ∧ c1.log = c.log ++ [.SINGLESTEP] := by
  obtain ⟨-, regs, mem, hk, hc1⟩ := single_step_and_wait_true K c c1 h
  rw [hc1]
  exact ⟨hstep c regs mem hk, rfl⟩

/-- Claim C10. Let the site of the record be armed on entry: the word at the
entry address is `(w AND NOT 0xFF) OR 0xCC` for a 64-bit word `w` and the
saved word is `w`; let the trap have fired there (the entry address is the
trap program counter minus 1) and let single-steps of the child not write
the word at the entry address. Then every successful run of
`trace_count_instructions` ends with the site armed with the same word and
the record unchanged, saved word `w` included; and the first single-step of
the run is taken in `replay_state`, where the program counter is exactly
the entry address and the word there is `w` again. -/
theorem trace_count_instructions_rearms (K : Kernel) (fuel : Nat) (c : Child)
    (f : function_information_t) (jra jip : Nat) (w : Nat) (hw : w < WORD)
    (harmed : c.mem f.ip = (w &&& (2 ^ 64 - 1 - 0xFF)) ||| 0xCC)
    (hsaved : f.original = w)
    (hentry : f.ip = (c.regs.rip % WORD + WORD - 1) % WORD)
    (hstep : ∀ s regs mem, K.step s = .stopped regs mem → mem f.ip = s.mem f.ip)
    (hret : (trace_count_instructions K fuel c f jra jip).map (fun r => r.ret) = some true) :
    ∃ r, trace_count_instructions K fuel c f jra jip = some r ∧
      r.child.mem f.ip = (w &&& (2 ^ 64 - 1 - 0xFF)) ||| 0xCC ∧
      r.func_info = f ∧
      (replay_state K c f jra).regs.rip = f.ip ∧
      (replay_state K c f jra).mem f.ip = w ∧
      Request.SINGLESTEP ∉ (replay_state K c f jra).log.drop c.log.length ∧
      ∃ rest, r.child.log = (replay_state K c f jra).log ++ Request.SINGLESTEP :: rest := by
  have harmed2 : c.mem f.ip = Nat.lor (Nat.land w HIGH_BIT_MASK) 0xCC := harmed
  cases hrun : trace_count_instructions K fuel c f jra jip with
  | none => simp [hrun] at hret
  | some r =>
    have hr : r.ret = true := by simpa [hrun] using hret
    obtain ⟨regs, c2, c3, c4, c5, f1, c6, c7, c8, c9, f2, c10, regs2, c11, c12,
      h1, h2, h3, h4, h5, h6, h7, h8, h9, h10, h11, hf, hc⟩ :=
      trace_count_instructions_success K fuel c f jra jip r hrun hr
    obtain ⟨-, hr1, hm1, E0, hE0, hE0s⟩ := trace_get_return_address_frame K c jra
    obtain ⟨-, hregs, hc2⟩ := ptrace_getregs_some K _ c2 regs h1
    have hreplay : replay_state K c f jra = c4 := by
      simp only [replay_state, h1]
      rw [hregs] at h2
      simp only at h2
      rw [h2]
      simp only [h3]
    have hc3 := ptrace_setregs_true K c2 c3 _ h2
    have m2 : c2.mem f.ip = c.mem f.ip := by rw [hc2]; show _ = _; rw [← hm1]; rfl
    have m3 : c3.mem f.ip = Nat.lor (Nat.land w HIGH_BIT_MASK) 0xCC := by
      rw [hc3]; show c2.mem f.ip = _; rw [m2, harmed2]
    have r3 : c3.regs.rip = f.ip := by
      rw [hc3, hregs, hentry, hr1]
    have l3 : c3.log = c.log ++ (E0 ++ [.GETREGS, .SETREGS
        { regs with rip := (regs.rip + WORD - 1) % WORD }]) := by
      rw [hc3, hc2]
      simp [Child.issue, hE0]
    obtain ⟨m4, r4, l4⟩ := trace_restore_function_armed K c3 c4 f w hw m3 hsaved h3
    obtain ⟨m5, l5⟩ := single_step_and_wait_frame K c4 c5 f.ip hstep h4
    obtain ⟨hf1, m6, -, E6, l6⟩ :=
      trace_add_breakpoint_rearm K c5 c6 f f1 w hw (by rw [m5, m4]) hsaved h5
    have hf1s := hf1.symm
    subst hf1s
    obtain ⟨m7, E7, l7⟩ := count_loop_frame K _ f.ip hstep fuel c6 jip 1 true r.count c7 h6
    obtain ⟨m8, -, l8⟩ :=
      trace_restore_function_armed K c7 c8 f w hw (by rw [m7, m6]) hsaved h7
    obtain ⟨m9, l9⟩ := single_step_and_wait_frame K c8 c9 f.ip hstep h8
    obtain ⟨hf2, m10, -, E10, l10⟩ :=
      trace_add_breakpoint_rearm K c9 c10 f f2 w hw (by rw [m9, m8]) hsaved h9
    obtain ⟨-, -, hc11⟩ := ptrace_getregs_some K c10 c11 regs2 h10
    have hc12 : c12 = c11.issue .CONT := by
      have := ptrace_cont_snd K c11
      rw [h11] at this
      exact this
    refine ⟨r, rfl, ?_, ?_, ?_, ?_, ?_, ?_⟩
    · rw [hc, hc12, hc11]
      exact m10
    · rw [hf, hf2]
    · rw [hreplay, r4, r3]
    · rw [hreplay, m4]
    · rw [hreplay, l4, l3, List.append_assoc, List.drop_left]
      intro hmem
      simp only [List.mem_append, List.mem_cons, List.mem_singleton, List.not_mem_nil,
        or_false] at hmem
      rcases hmem with (h0 | h0 | h0) | h0 | h0
      · rcases hE0s _ h0 with h00 | ⟨a, h00⟩ <;> cases h00
      all_goals cases h0
    · rw [hreplay, hc, hc12, hc11]
      refine ⟨E6 ++ E7 ++ [.PEEKTEXT f.ip, .POKETEXT f.ip w] ++ [.SINGLESTEP] ++ E10
        ++ [.GETREGS, .CONT], ?_⟩
      simp [Child.issue, l10, l9, l8, l7, l6, l5]

/-- The trapped child of the running example: after the successful run the word
at address 16 is `0x11223344556677CC` again and the record is unchanged; the
first single-step was taken at program counter 16 with `0x1122334455667788`
back in place. -/
theorem trace_count_instructions_rearms_witness :
    ∃ r, trace_count_instructions K_line 10 c_trap f_rec 0 0 = some r ∧
      r.child.mem f_rec.ip = (0x1122334455667788 &&& (2 ^ 64 - 1 - 0xFF)) ||| 0xCC ∧
      r.func_info = f_rec ∧
      (replay_state K_line c_trap f_rec 0).regs.rip = f_rec.ip ∧
      (replay_state K_line c_trap f_rec 0).mem f_rec.ip = 0x1122334455667788 ∧
      Request.SINGLESTEP ∉ (replay_state K_line c_trap f_rec 0).log.drop c_trap.log.length ∧
      ∃ rest, r.child.log
        = (replay_state K_line c_trap f_rec 0).log ++ Request.SINGLESTEP :: rest :=
  trace_count_instructions_rearms K_line 10 c_trap f_rec 0 0 0x1122334455667788
    (by decide) (by decide) rfl (by decide)
    (fun s regs mem h => by cases h; rfl) (by decide)


/-! ## Failures that are not surfaced -/

/-- Claim C1 does not hold of the code. Under a kernel that fails no register
read but refuses the peek at the stack pointer, `trace_count_instructions`
returns success with count 2, the indeterminate value of `return_address`
being 18, while the word on top of the stack at entry, the return address,
is 19: the program counter is 18 after 2 single-steps from the rewound
entry address and is 19 only after 3. The reported count is therefore not
the least `n ≥ 1` at which the program counter is the return address. -/
theorem trace_count_instructions_count_stack_fault :
    (∀ s, K_stackfault.fails s .GETREGS = false) ∧
    (trace_get_return_address K_stackfault c_trap 18).1 = false ∧
    c_trap.mem (c_trap.regs.rsp % WORD) % WORD = 19 ∧
    (trace_count_instructions K_stackfault 10 c_trap f_rec 18 0).map
        (fun r => (r.ret, r.count)) = some (true, 2) ∧
    pc_after_steps K_stackfault c_trap f_rec 18 1 = some 17 ∧
    pc_after_steps K_stackfault c_trap f_rec 18 2 = some 18 ∧
    pc_after_steps K_stackfault c_trap f_rec 18 3 = some 19 :=
  ⟨fun _ => rfl, by decide, by decide, by decide, by decide, by decide, by decide⟩

/-- Claim C2 does not hold of the code. The read of the return address fails
(the peek at the stack pointer is refused), yet `trace_count_instructions`
goes on with the indeterminate value of `return_address` and returns
success: count 2 when that value is 18, count 3 when it is 19. Likewise
a failed register read in the counting loop (the tenth request) is not
surfaced: the loop goes on with the previous value of `ip` and the function
returns success. -/
theorem trace_count_instructions_unchecked_reads :
    (trace_get_return_address K_stackfault c_trap 18).1 = false ∧
    (trace_count_instructions K_stackfault 10 c_trap f_rec 18 0).map
        (fun r => (r.ret, r.count)) = some (true, 2) ∧
    (trace_count_instructions K_stackfault 10 c_trap f_rec 19 0).map
        (fun r => (r.ret, r.count)) = some (true, 3) ∧
    (trace_get_child_ip K_regs_once (loop_entry K_regs_once c_trap f_rec 0) 0).1 = false ∧
    (trace_count_instructions K_regs_once 10 c_trap f_rec 0 0).map
        (fun r => (r.ret, r.count)) = some (true, 3) := by
  decide

/-- Claim C7 does not hold of the code. With the child alive, `trace_function_calls`
returns failure when `waitpid` returns `-1`, and when the register read at
a stop fails, and in both runs the child is still alive on return and no
kill was issued. -/
theorem trace_function_calls_leaves_child_alive :
    (trace_function_calls K_waitfail 10 0 5 c_trap [f_rec]).map
        (fun r => (r.1, r.2.2.alive, r.2.2.log)) = some (false, true, []) ∧
    (trace_function_calls K_regsfail 10 0 5 c_trap [f_rec]).map
        (fun r => (r.1, r.2.2.alive, r.2.2.log)) = some (false, true, [.GETREGS]) := by
  decide


/-! ## Address resolution -/

theorem is_target_loop_eq (trace_info : trace_info_t) (die : Die) (fs : List String) :
    is_target_loop trace_info die fs =
      if die.name ∈ fs then
        match trace_info.function_infos.get? trace_info.next_func with
        | none => none
        | some slot =>
          some (1, { trace_info with
                     function_infos := trace_info.function_infos.set trace_info.next_func
                       { slot with name := some die.name, ip := die.lowpc } })
      else some (0, trace_info) := by
  induction fs with
  | nil => simp [is_target_loop]
  | cons f rest ih =>
    by_cases hf : f = die.name
    · simp [is_target_loop, hf]
    · have hf2 : ¬ die.name = f := fun h => hf h.symm
      simp only [is_target_loop, hf, if_false, ih, List.mem_cons, hf2, false_or]

theorem trace_is_target_function_no_match (fs : List String) (trace_info : trace_info_t)
    (die : Die) (h : die.is_match fs = false) :
    trace_is_target_function fs trace_info die = some (0, trace_info) := by
  unfold trace_is_target_function
  by_cases ht : die.tag = DW_TAG_subprogram
  · have hn : die.name ∉ fs := by
      intro hm
      simp [Die.is_match, ht, hm] at h
    simp [ht, is_target_loop_eq, hn]
  · simp [ht]

theorem trace_is_target_function_match (fs : List String) (n : Nat) (trace_info : trace_info_t)
    (seen : List Die) (die : Die) (hst : walk_state n trace_info seen)
    (h : die.is_match fs = true) (hroom : seen.length < n) :
    ∃ trace_info1, trace_is_target_function fs trace_info die = some (1, trace_info1) ∧
      walk_state n { trace_info1 with next_func := trace_info1.next_func + 1 } (seen ++ [die]) := by
  obtain ⟨hnext, htbl⟩ := hst
  simp only [Die.is_match, Bool.and_eq_true, beq_iff_eq, decide_eq_true_eq] at h
  obtain ⟨ht, hm⟩ := h
  have hrep : List.replicate (n - seen.length) (⟨none, 0, 0⟩ : function_information_t)
      = ⟨none, 0, 0⟩ :: List.replicate (n - (seen.length + 1)) ⟨none, 0, 0⟩ := by
    have : n - seen.length = (n - (seen.length + 1)) + 1 := by omega
    rw [this, List.replicate_succ]
  have hget : trace_info.function_infos.get? trace_info.next_func = some ⟨none, 0, 0⟩ := by
    rw [htbl, hnext, hrep, List.get?_eq_getElem?,
      List.getElem?_append_right (by simp)]
    simp
  refine ⟨{ trace_info with
      function_infos := trace_info.function_infos.set trace_info.next_func
        ⟨some die.name, die.lowpc, 0⟩ }, ?_, ?_⟩
  · unfold trace_is_target_function
    simp only [ht, ne_eq, not_true_eq_false, if_false, is_target_loop_eq, hm, if_true, hget]
  · refine ⟨by simp [hnext], ?_⟩
    simp only [htbl, hnext, hrep]
    rw [List.set_append_right _ _ (by simp)]
    simp [Die.record]

/-- The walk over the children of one compilation unit writes the record of
each matching entry, in order, as long as there is room. -/
theorem cu_find_loop_spec (fs : List String) (n : Nat) (ds : List Die) (d : Die)
    (trace_info : trace_info_t) (count : Nat) (seen : List Die)
    (hst : walk_state n trace_info seen)
    (hroom : (seen ++ (d :: ds).filter (Die.is_match fs)).length ≤ n) :
    ∃ trace_info1,
      cu_find_loop fs trace_info count d ds
        = some (count + ((d :: ds).filter (Die.is_match fs)).length, trace_info1) ∧
      walk_state n trace_info1 (seen ++ (d :: ds).filter (Die.is_match fs)) := by
  induction ds generalizing d trace_info count seen with
  | nil =>
    cases hd : d.is_match fs with
    | false =>
      refine ⟨trace_info, ?_, by simpa [hd] using hst⟩
      simp [cu_find_loop, trace_is_target_function_no_match fs trace_info d hd, hd]
    | true =>
      have hlt : seen.length < n := by simp [hd] at hroom; omega
      obtain ⟨t1, h1, h2⟩ := trace_is_target_function_match fs n trace_info seen d hst hd hlt
      refine ⟨{ t1 with next_func := t1.next_func + 1 }, ?_, by simpa [hd] using h2⟩
      simp [cu_find_loop, h1, hd]
  | cons e rest ih =>
    cases hd : d.is_match fs with
    | false =>
      have hfil : (d :: e :: rest).filter (Die.is_match fs)
          = (e :: rest).filter (Die.is_match fs) := List.filter_cons_of_neg (by simp [hd])
      rw [hfil] at hroom
      obtain ⟨t2, h3, h4⟩ := ih e trace_info count seen hst hroom
      refine ⟨t2, ?_, ?_⟩
      · rw [cu_find_loop, trace_is_target_function_no_match fs trace_info d hd]
        simp only [zero_ne_one, if_false]
        rw [hfil, h3]
      · rw [hfil]
        exact h4
    | true =>
      have hfil : (d :: e :: rest).filter (Die.is_match fs)
          = d :: (e :: rest).filter (Die.is_match fs) := List.filter_cons_of_pos hd
      rw [hfil] at hroom
      have hlt : seen.length < n := by
        simp only [List.length_append, List.length_cons] at hroom
        omega
      obtain ⟨t1, h1, h2⟩ := trace_is_target_function_match fs n trace_info seen d hst hd hlt
      have hroom2 : ((seen ++ [d]) ++ (e :: rest).filter (Die.is_match fs)).length ≤ n := by
        simpa using hroom
      obtain ⟨t2, h3, h4⟩ := ih e _ (count + 1) (seen ++ [d]) h2 hroom2
      refine ⟨t2, ?_, ?_⟩
      · rw [cu_find_loop, h1]
        simp only [if_true]
        rw [h3, hfil]
        simp only [List.length_cons]
        congr 2
        omega
      · rw [hfil]
        simpa using h4

/-- The loop over compilation units: as long as the matching entries fit in the
table, the result is not undefined, and on success the table is the list of
records of `seen` followed by matching entries of the walk, `n` in all. -/
theorem find_functions_loop_spec (fs : List String) (n : Nat) (walk : List (List Die))
    (trace_info : trace_info_t) (seen : List Die)
    (hst : walk_state n trace_info seen)
    (hne : ∀ cu ∈ walk, cu ≠ [])
    (hroom : (seen ++ walk.flatten.filter (Die.is_match fs)).length ≤ n) :
    find_functions_loop fs n walk trace_info seen.length ≠ .undefined ∧
    ∀ tbl, find_functions_loop fs n walk trace_info seen.length = .success tbl →
      ∃ more, more.Sublist (walk.flatten.filter (Die.is_match fs)) ∧
        tbl = (seen ++ more).map Die.record ∧ (seen ++ more).length = n := by
  have hdone : ∀ tbl,
      (if n ≠ seen.length then FindResult.failure
        else FindResult.success trace_info.function_infos) = .success tbl →
      ∃ more, more.Sublist (walk.flatten.filter (Die.is_match fs)) ∧
        tbl = (seen ++ more).map Die.record ∧ (seen ++ more).length = n := by
    intro tbl h
    split at h
    · cases h
    · rename_i hn
      simp only [ne_eq, not_not] at hn
      simp only [FindResult.success.injEq] at h
      refine ⟨[], List.nil_sublist _, ?_, by simp [hn]⟩
      rw [← h, hst.2, hn]
      simp
  induction walk generalizing trace_info seen with
  | nil =>
    refine ⟨?_, ?_⟩
    · simp only [find_functions_loop]
      split <;> simp
    · intro tbl h
      exact hdone tbl (by simpa [find_functions_loop] using h)
  | cons cu rest ih =>
    by_cases hlt : seen.length < n
    · cases cu with
      | nil => exact absurd rfl (hne [] (by simp))
      | cons d ds =>
        have hflat : (((d :: ds) :: rest).flatten).filter (Die.is_match fs)
            = (d :: ds).filter (Die.is_match fs) ++ rest.flatten.filter (Die.is_match fs) := by
          rw [List.flatten_cons, List.filter_append]
        rw [hflat] at hroom
        have hroom1 : (seen ++ (d :: ds).filter (Die.is_match fs)).length ≤ n := by
          simp only [List.length_append] at hroom ⊢
          omega
        obtain ⟨t1, h1, h2⟩ := cu_find_loop_spec fs n ds d trace_info 0 seen hst hroom1
        have hroom2 : ((seen ++ (d :: ds).filter (Die.is_match fs))
            ++ rest.flatten.filter (Die.is_match fs)).length ≤ n := by
          simpa [List.append_assoc] using hroom
        have hne2 : ∀ cu ∈ rest, cu ≠ [] := fun cu hcu => hne cu (by simp [hcu])
        have hdone2 : ∀ tbl,
            (if n ≠ (seen ++ (d :: ds).filter (Die.is_match fs)).length then FindResult.failure
              else FindResult.success t1.function_infos) = .success tbl →
            ∃ more, more.Sublist (rest.flatten.filter (Die.is_match fs)) ∧
              tbl = ((seen ++ (d :: ds).filter (Die.is_match fs)) ++ more).map Die.record ∧
              ((seen ++ (d :: ds).filter (Die.is_match fs)) ++ more).length = n := by
          intro tbl h
          split at h
          · cases h
          · rename_i hn
            simp only [ne_eq, not_not] at hn
            simp only [FindResult.success.injEq] at h
            refine ⟨[], List.nil_sublist _, ?_, by simp [← hn]⟩
            rw [← h, h2.2, ← hn]
            simp
        obtain ⟨i1, i2⟩ := ih t1 (seen ++ (d :: ds).filter (Die.is_match fs)) h2 hne2 hroom2 hdone2
        have hstep : find_functions_loop fs n ((d :: ds) :: rest) trace_info seen.length
            = find_functions_loop fs n rest t1
                (seen ++ (d :: ds).filter (Die.is_match fs)).length := by
          rw [find_functions_loop]
          simp only [hlt, if_true, trace_cu_find_functions, h1, List.length_append, Nat.zero_add]
        rw [hstep, hflat]
        refine ⟨i1, ?_⟩
        intro tbl h
        obtain ⟨more, hs, ht, hl⟩ := i2 tbl h
        refine ⟨(d :: ds).filter (Die.is_match fs) ++ more,
          List.Sublist.append (List.Sublist.refl _) hs, ?_, ?_⟩
        · rw [ht, List.append_assoc]
        · rw [← hl, List.append_assoc]
    · have hstop : find_functions_loop fs n (cu :: rest) trace_info seen.length
          = if n ≠ seen.length then FindResult.failure
            else FindResult.success trace_info.function_infos := by
        rw [find_functions_loop]
        simp only [hlt, if_false]
      rw [hstop]
      refine ⟨by split <;> simp, ?_⟩
      intro tbl h
      exact hdone tbl h

theorem filter_record_name_length (all : List Die) (nm : String) :
    ((all.map Die.record).filter (fun r => r.name == some nm)).length
      = (all.map (fun d => d.name)).count nm := by
  induction all with
  | nil => rfl
  | cons d rest ih =>
    by_cases h : d.name = nm
    · simp [Die.record, h, ← ih]
    · have h2 : ¬ (d.name == nm) = true := by simpa using h
      have h3 : ¬ (d.record.name == some nm) = true := by simpa [Die.record] using h
      simp only [List.map_cons, List.count_cons, h2, if_false, Nat.add_zero, ← ih]
      have h4 : (d.record :: List.map Die.record rest).filter (fun r => r.name == some nm)
          = (List.map Die.record rest).filter (fun r => r.name == some nm) :=
        List.filter_cons_of_neg h3
      rw [h4]
      simp

/-- Claim C6, as amended. For every list of requested names and every walk in
which each compilation unit has at least one entry and no two of the entries
the walk takes (subprograms with a requested name) carry the same name,
`trace_find_functions` returns success or failure (no write goes outside the
table), and when it returns success the table has one slot per requested
name, holds exactly one record of each requested name, and every record
carries the name and the low pc of a subprogram entry of the walk whose name
was requested. -/
theorem trace_find_functions_spec (functions : List String) (open_ok init_ok : Bool)
    (walk : List (List Die))
    (hne : ∀ cu ∈ walk, cu ≠ [])
    (hnd : ((walk.flatten.filter (Die.is_match functions)).map (fun d => d.name)).Nodup) :
    trace_find_functions functions open_ok init_ok walk ≠ .undefined ∧
    ∀ tbl, trace_find_functions functions open_ok init_ok walk = .success tbl →
      tbl.length = functions.length ∧
      (∀ nm ∈ functions, (tbl.filter (fun r => r.name == some nm)).length = 1) ∧
      (∀ r ∈ tbl, ∃ d ∈ walk.flatten, d.tag = DW_TAG_subprogram ∧ d.name ∈ functions ∧
        r.name = some d.name ∧ r.ip = d.lowpc) := by
  have hmem : ∀ d ∈ walk.flatten.filter (Die.is_match functions),
      d ∈ walk.flatten ∧ d.tag = DW_TAG_subprogram ∧ d.name ∈ functions := by
    intro d hd
    rw [List.mem_filter] at hd
    obtain ⟨h1, h2⟩ := hd
    simp only [Die.is_match, Bool.and_eq_true, beq_iff_eq, decide_eq_true_eq] at h2
    exact ⟨h1, h2.1, h2.2⟩
  have hbound : ∀ l : List Die, l.Sublist (walk.flatten.filter (Die.is_match functions)) →
      (l.map (fun d => d.name)).Subperm functions := by
    intro l hl
    apply List.Nodup.subperm (List.Nodup.sublist (hl.map _) hnd)
    intro nm hnm
    obtain ⟨d, hd, rfl⟩ := List.mem_map.1 hnm
    exact (hmem d (hl.subset hd)).2.2
  have hroom : (([] : List Die) ++ walk.flatten.filter (Die.is_match functions)).length
      ≤ functions.length := by
    have := (hbound _ (List.Sublist.refl _)).length_le
    rw [List.length_map] at this
    rw [List.nil_append]
    exact this
  have hinit : walk_state functions.length ( trace_info_initialize functions) [] := by
    simp [walk_state, trace_info_initialize]
  obtain ⟨h1, h2⟩ := find_functions_loop_spec functions functions.length walk
    ( trace_info_initialize functions) [] hinit hne hroom
  simp only [List.length_nil] at h1 h2
  unfold trace_find_functions
  cases open_ok with
  | false => simp
  | true =>
    cases init_ok with
    | false => simp
    | true =>
      simp only [Bool.not_true, Bool.false_eq_true, if_false]
      refine ⟨h1, ?_⟩
      intro tbl htbl
      obtain ⟨more, hs, ht, hl⟩ := h2 tbl htbl
      simp only [List.nil_append] at ht hl
      have hperm : (more.map (fun d => d.name)).Perm functions :=
        (hbound more hs).perm_of_length_le (by simp [hl])
      have hnd2 : (more.map (fun d => d.name)).Nodup := List.Nodup.sublist (hs.map _) hnd
      refine ⟨by rw [ht]; simp [hl], ?_, ?_⟩
      · intro nm hnm
        rw [ht, filter_record_name_length]
        exact List.count_eq_one_of_mem hnd2 (hperm.mem_iff.2 hnm)
      · intro r hr
        rw [ht] at hr
        obtain ⟨d, hd, rfl⟩ := List.mem_map.1 hr
        obtain ⟨m1, m2, m3⟩ := hmem d (hs.subset hd)
        exact ⟨d, m1, m2, m3, rfl, rfl⟩

/-- Two requested names, each carried by one subprogram of the walk, among
entries that are not taken: the table holds one record for each. -/
theorem trace_find_functions_spec_witness :
    trace_find_functions ["f", "g"] true true
        [[⟨0x11, "x", 0⟩, ⟨0x2e, "g", 16⟩], [⟨0x2e, "h", 32⟩, ⟨0x2e, "f", 48⟩]]
      = .success [⟨some "g", 16, 0⟩, ⟨some "f", 48, 0⟩] ∧
    (∀ nm ∈ ["f", "g"],
      (([⟨some "g", 16, 0⟩, ⟨some "f", 48, 0⟩] : List function_information_t).filter
        (fun r => r.name == some nm)).length = 1) :=
  ⟨by decide,
   ((trace_find_functions_spec ["f", "g"] true true
      [[⟨0x11, "x", 0⟩, ⟨0x2e, "g", 16⟩], [⟨0x2e, "h", 32⟩, ⟨0x2e, "f", 48⟩]]
      (by decide) (by decide)).2 _ (by decide)).2.1⟩

/-- Claim C6 as stated fails. With `f` and `g` requested and two subprograms
named `f` in the walk, `trace_find_functions` returns success with two records
named `f` and none named `g`. With `f` alone requested and two subprograms
named `f` in one compilation unit, the second record is written outside the
one-slot table; and a compilation unit without entries makes the walk read
an unset entry: neither run returns success or failure. -/
theorem trace_find_functions_duplicate_name :
    trace_find_functions ["f", "g"] true true [[⟨0x2e, "f", 16⟩], [⟨0x2e, "f", 32⟩]]
      = .success [⟨some "f", 16, 0⟩, ⟨some "f", 32, 0⟩] ∧
    (([⟨some "f", 16, 0⟩, ⟨some "f", 32, 0⟩] : List function_information_t).filter
        (fun r => r.name == some "g")).length = 0 ∧
    (([⟨some "f", 16, 0⟩, ⟨some "f", 32, 0⟩] : List function_information_t).filter
        (fun r => r.name == some "f")).length = 2 ∧
    trace_find_functions ["f"] true true [[⟨0x2e, "f", 16⟩, ⟨0x2e, "f", 32⟩]] = .undefined ∧
    trace_find_functions ["f"] true true [[], [⟨0x2e, "f", 16⟩]] = .undefined := by
  decide


/-! ## Termination of the engine under a kernel that fails nothing -/

theorem trace_restore_function_ok (K : Kernel) (hok : ∀ s r, K.fails s r = false)
    (c : Child) (f : function_information_t) (halive : c.alive = true) :
    (trace_restore_function K c f).1 = true ∧ (trace_restore_function K c f).2.alive = true := by
  simp [trace_restore_function, ptrace_peektext, ptrace_poketext, refused, hok, halive,
    Child.issue]

theorem trace_add_breakpoint_ok (K : Kernel) (hok : ∀ s r, K.fails s r = false)
    (c : Child) (f : function_information_t) (halive : c.alive = true) :
    (trace_add_breakpoint K c f).1 = true ∧ (trace_add_breakpoint K c f).2.2.alive = true := by
  simp [trace_add_breakpoint, ptrace_peektext, ptrace_poketext, refused, hok, halive,
    Child.issue]

theorem single_step_and_wait_ok (K : Kernel) (hok : ∀ s r, K.fails s r = false)
    (hstep : ∀ s, ∃ regs mem, K.step s = .stopped regs mem)
    (c : Child) (halive : c.alive = true) :
    (single_step_and_wait K c).1 = true ∧ (single_step_and_wait K c).2.alive = true := by
  obtain ⟨regs, mem, hs⟩ := hstep c
  simp [single_step_and_wait, refused, hok, halive, hs, Child.issue]

/-- When the program counter is the return address after `k` further rounds,
the counting loop leaves through `break` within `k + 1` rounds. -/
theorem count_loop_reaches (K : Kernel) (ra : Nat) (hok : ∀ s r, K.fails s r = false)
    (k : Nat) (c : Child) (ip count fuel : Nat) (s : Child)
    (halive : c.alive = true) (hs : after_rounds K k c = some s)
    (hpc : s.regs.rip % WORD = ra) (hfuel : k < fuel) :
    ∃ n c1, count_loop K ra fuel c ip count = some (true, n, c1) ∧ count ≤ n ∧ n ≤ count + k ∧
      c1.alive = true := by
  induction k generalizing c ip count fuel with
  | zero =>
    obtain ⟨fuel, rfl⟩ : ∃ m, fuel = m + 1 := ⟨fuel - 1, by omega⟩
    simp only [after_rounds, Option.some.injEq] at hs
    subst hs
    have hr : refused K c .GETREGS = false := by simp [refused, halive, hok]
    refine ⟨count, c.issue .GETREGS, ?_, le_refl _, by omega, halive⟩
    rw [count_loop, trace_get_child_ip_ok K c ip hr]
    simp [hpc]
  | succ k ih =>
    obtain ⟨fuel, rfl⟩ : ∃ m, fuel = m + 1 := ⟨fuel - 1, by omega⟩
    have hr : refused K c .GETREGS = false := by simp [refused, halive, hok]
    rw [after_rounds, ptrace_getregs_snd] at hs
    rw [count_loop, trace_get_child_ip_ok K c ip hr]
    simp only
    by_cases hra : c.regs.rip % WORD = ra
    · exact ⟨count, c.issue .GETREGS, by simp [hra], le_refl _, by omega, halive⟩
    · simp only [hra, if_false]
      rcases hst : trace_single_step K (c.issue .GETREGS) with ⟨b, c2⟩
      rw [hst] at hs
      cases b with
      | false => simp at hs
      | true =>
        simp only at hs ⊢
        obtain ⟨-, regs, mem, -, hc2⟩ := single_step_and_wait_true K _ c2 hst
        have halive2 : c2.alive = true := by rw [hc2]; exact halive
        obtain ⟨n, c1, h1, h2, h3, h4⟩ :=
          ih c2 (c.regs.rip % WORD) (count + 1) fuel halive2 hs (by omega)
        exact ⟨n, c1, h1, by omega, by omega, h4⟩

theorem eq_true_pair {α : Type} (x : Bool × α) (h : x.1 = true) : x = (true, x.2) := by
  cases x
  simp_all

theorem eq_true_triple {α β : Type} (x : Bool × α × β) (h : x.1 = true) :
    x = (true, x.2.1, x.2.2) := by
  cases x
  simp_all

/-- The run of `trace_count_instructions` in which every step succeeds. -/
theorem trace_count_instructions_of_steps (K : Kernel) (fuel : Nat) (c : Child)
    (f : function_information_t) (jra jip n : Nat)
    (regs : user_regs_struct) (c2 c3 c4 c5 : Child) (f1 : function_information_t)
    (c6 c7 c8 c9 : Child) (f2 : function_information_t) (c10 : Child)
    (regs2 : user_regs_struct) (c11 c12 : Child)
    (h1 : ptrace_getregs K (trace_get_return_address K c jra).2.2 = (some regs, c2))
    (h2 : ptrace_setregs K c2 { regs with rip := (regs.rip + WORD - 1) % WORD } = (true, c3))
    (h3 : trace_restore_function K c3 f = (true, c4))
    (h4 : trace_single_step K c4 = (true, c5))
    (h5 : trace_add_breakpoint K c5 f = (true, f1, c6))
    (h6 : count_loop K (trace_get_return_address K c jra).2.1 fuel c6 jip 1 = some (true, n, c7))
    (h7 : trace_restore_function K c7 f1 = (true, c8))
    (h8 : single_step_and_wait K c8 = (true, c9))
    (h9 : trace_add_breakpoint K c9 f1 = (true, f2, c10))
    (h10 : ptrace_getregs K c10 = (some regs2, c11))
    (h11 : ptrace_cont K c11 = (true, c12)) :
    trace_count_instructions K fuel c f jra jip = some ⟨true, n, f2, c12⟩ := by
  unfold trace_count_instructions
  rcases h0 : trace_get_return_address K c jra with ⟨b, ra, c1⟩
  rw [h0] at h1 h6
  simp only at h1 h6 ⊢
  simp only [h1, h2, h3, h4, h5, h6, h7, h8, h9, h10, h11]

/-- Under a kernel that fails nothing and a child that does not exit, if the
program counter is the return address after `n ≥ 1` single-steps from the
rewound entry address, `trace_count_instructions` with fuel `n` or more returns
success with a count between 1 and `n`. -/
theorem trace_count_instructions_returns (K : Kernel) (hok : ∀ s r, K.fails s r = false)
    (hstep : ∀ s, ∃ regs mem, K.step s = .stopped regs mem)
    (c : Child) (f : function_information_t) (jra jip : Nat) (halive : c.alive = true)
    (n fuel : Nat) (hn : 1 ≤ n) (hfuel : n ≤ fuel)
    (hpc : pc_after_steps K c f jra n = some (c.mem (c.regs.rsp % WORD) % WORD)) :
    ∃ r, trace_count_instructions K fuel c f jra jip = some r ∧ r.ret = true ∧
      1 ≤ r.count ∧ r.count ≤ n := by
  have hra1 : (trace_get_return_address K c jra).1 = true := by
    simp [trace_get_return_address, ptrace_getregs, ptrace_peektext, refused, hok, halive,
      Child.issue]
  obtain ⟨-, hra⟩ := trace_get_return_address_true K c jra hra1
  obtain ⟨a1, -, -, -⟩ := trace_get_return_address_frame K c jra
  rw [halive] at a1
  have e1 : ptrace_getregs K (trace_get_return_address K c jra).2.2
      = (some ⟨(trace_get_return_address K c jra).2.2.regs.rip % WORD,
               (trace_get_return_address K c jra).2.2.regs.rsp % WORD⟩,
         (ptrace_getregs K (trace_get_return_address K c jra).2.2).2) := by
    simp [ptrace_getregs, refused, hok, a1]
  have a2 : (ptrace_getregs K (trace_get_return_address K c jra).2.2).2.alive = true := by
    rw [ptrace_getregs_snd]; exact a1
  have e2 : ∀ s r, s.alive = true →
      ptrace_setregs K s r = (true, (ptrace_setregs K s r).2) ∧
      (ptrace_setregs K s r).2.alive = true := by
    intro s r hs
    simp [ptrace_setregs, refused, hok, hs, Child.issue]
  obtain ⟨e3, a3⟩ := e2 _ ⟨((trace_get_return_address K c jra).2.2.regs.rip % WORD + WORD - 1) % WORD,
    (trace_get_return_address K c jra).2.2.regs.rsp % WORD⟩ a2
  obtain ⟨e4, a4⟩ := trace_restore_function_ok K hok _ f a3
  obtain ⟨e5, a5⟩ := single_step_and_wait_ok K hok hstep _ a4
  obtain ⟨e6, a6⟩ := trace_add_breakpoint_ok K hok _ f a5
  -- the counting loop
  have hloop : ∃ s, after_rounds K (n - 1) (loop_entry K c f jra) = some s ∧
      s.regs.rip % WORD = c.mem (c.regs.rsp % WORD) % WORD := by
    unfold pc_after_steps at hpc
    cases hs : after_rounds K (n - 1) (loop_entry K c f jra) with
    | none => simp [hs] at hpc
    | some s => exact ⟨s, rfl, by simpa [hs] using hpc⟩
  obtain ⟨s, hs1, hs2⟩ := hloop
  obtain ⟨m, c7, h6, hm1, hm2, a7⟩ := count_loop_reaches K _ hok (n - 1)
    (loop_entry K c f jra) jip 1 fuel s a6 hs1 hs2 (by omega)
  rw [← hra] at h6
  obtain ⟨e8, a8⟩ := trace_restore_function_ok K hok c7
    (trace_add_breakpoint K (trace_single_step K (replay_state K c f jra)).2 f).2.1 a7
  obtain ⟨e9, a9⟩ := single_step_and_wait_ok K hok hstep _ a8
  obtain ⟨e10, a10⟩ := trace_add_breakpoint_ok K hok _
    (trace_add_breakpoint K (trace_single_step K (replay_state K c f jra)).2 f).2.1 a9
  have e11 : ∀ s, s.alive = true → ∃ r, ptrace_getregs K s = (some r, (ptrace_getregs K s).2) := by
    intro s hs
    exact ⟨⟨s.regs.rip % WORD, s.regs.rsp % WORD⟩, by simp [ptrace_getregs, refused, hok, hs]⟩
  obtain ⟨regs2, e12⟩ := e11 _ a10
  have a12 : ∀ s, s.alive = true → ptrace_cont K s = (true, (ptrace_cont K s).2) := by
    intro s hs
    simp [ptrace_cont, refused, hok, hs]
  refine ⟨_, trace_count_instructions_of_steps K fuel c f jra jip m _ _ _ _ _ _ _ c7 _ _ _ _ _ _ _
    e1 e3 (eq_true_pair _ e4) (eq_true_pair _ e5) (eq_true_triple _ e6) h6
    (eq_true_pair _ e8) (eq_true_pair _ e9) (eq_true_triple _ e10) e12
    (a12 _ (by rw [ptrace_getregs_snd]; exact a10)), rfl, hm1, ?_⟩
  show m ≤ n
  omega

end Ptracer
